import Mathlib

/-!
The spaced-repetition core of `src/App.jsx` (n2-vocab-app).

A shallow embedding of the scheduling, due-selection, session-building, import
and progress code of `src/App.jsx`, followed by theorems about it.

Modelling conventions
* JavaScript arrays are lists; objects used as dictionaries are functions from
  keys to optional values (`none` is an absent key, read as `undefined`).
* A `Date` is its time value, in milliseconds from 1970-01-01T00:00Z. The host's time
  zone is a parameter (`Host`): `getDate` and `setDate` work on local time, and
  `toISOString` prints UTC. One clock reading is used for a whole synchronous call.
* The level of a stored state is an integer or `NaN` (`JSNum`); a stored state without a
  level reads as `NaN`. Integers stand for themselves where doubles are exact (below
  `2 ^ 53` in magnitude).
* The history of a stored state is any value (`HistoryVal`).
* The rate of the progress summary is computed in double arithmetic (`roundRate`).
* Code that can throw returns `Except JSError _`.
-/

namespace N2Vocab

/-! ## Values -/

deriving instance DecidableEq for Except

/-- Errors raised by the modelled code -/
inductive JSError where
  /-- `RangeError: Invalid time value`, thrown by `toISOString` on an invalid `Date` -/
  | rangeError
  /-- `TypeError`, thrown by the spread of a value that is not iterable -/
  | typeError
  /-- An `Error` thrown with the given message -/
  | error (msg : String)
  deriving DecidableEq, Repr

/-- Number values a level can take: an integral number, or `NaN` (which is also
what a missing level, `undefined`, becomes in arithmetic and in `Math.min`/`Math.max`). -/
inductive JSNum where
  | int (n : Int)
  | nan
  deriving DecidableEq, Repr

/-- The `+` of two numbers -/
def JSNum.add : JSNum → JSNum → JSNum
  | .int a, .int b => .int (a + b)
  | _, _ => .nan

/-- The function `Math.min` on two arguments: `NaN` if either is `NaN` -/
def mathMin : JSNum → JSNum → JSNum
  | .int a, .int b => .int (min a b)
  | _, _ => .nan

/-- The function `Math.max` on two arguments: `NaN` if either is `NaN` -/
def mathMax : JSNum → JSNum → JSNum
  | .int a, .int b => .int (max a b)
  | _, _ => .nan

/-! ## Strings: UTF-16 order -/

/-- The UTF-16 code units of a character -/
def utf16Char (c : Char) : List Nat :=
  if c.toNat < 0x10000 then [c.toNat]
  else [0xD800 + (c.toNat - 0x10000) / 0x400, 0xDC00 + (c.toNat - 0x10000) % 0x400]

/-- The UTF-16 code units of a string, which is what JavaScript compares -/
def utf16 (s : String) : List Nat := s.data.flatMap utf16Char

/-- Strict lexicographic order on code-unit sequences (a proper prefix is smaller) -/
def codeUnitsLt : List Nat → List Nat → Bool
  | [], [] => false
  | [], _ :: _ => true
  | _ :: _, [] => false
  | x :: xs, y :: ys => if x < y then true else if y < x then false else codeUnitsLt xs ys

/-- The comparison `a <= b` of two strings: `!(b < a)` on code units -/
def jsStrLe (a b : String) : Bool := !codeUnitsLt (utf16 b) (utf16 a)

/-! ## Dates -/

/-- Milliseconds in a day -/
def msPerDay : Int := 86400000

/-- The largest time value of a `Date`, in milliseconds from the epoch; the smallest is
its negative. -/
def maxTime : Int := 8640000000000000

/-- Whether a time value is inside the range of `Date`; outside it the date is invalid -/
def validTime (t : Int) : Bool := decide (-maxTime ≤ t ∧ t ≤ maxTime)

/-- Two decimal digits, zero padded -/
def pad2 (n : Nat) : String := if n < 10 then "0" ++ toString n else toString n

/-- Four decimal digits, zero padded -/
def pad4 (n : Nat) : String :=
  if n < 10 then "000" ++ toString n
  else if n < 100 then "00" ++ toString n
  else if n < 1000 then "0" ++ toString n
  else toString n

/-- Six decimal digits, zero padded -/
def pad6 (n : Nat) : String :=
  if n < 10 then "00000" ++ toString n
  else if n < 100 then "0000" ++ toString n
  else if n < 1000 then "000" ++ toString n
  else if n < 10000 then "00" ++ toString n
  else if n < 100000 then "0" ++ toString n
  else toString n

/-- The first ten characters of the ISO rendering of the UTC day `days` (counted from
1970-01-01): `YYYY-MM-DD` for the years 0 to 9999, and the first ten characters of
`±YYYYYY-MM-DD` for the other years, in the proleptic Gregorian calendar. -/
def isoDate (days : Int) : String :=
  let z := days + 719468
  let era := z / 146097
  let doe := (z % 146097).toNat
  let yoe := (doe - doe / 1460 + doe / 36524 - doe / 146096) / 365
  let doy := doe - (365 * yoe + yoe / 4 - yoe / 100)
  let mp := (5 * doy + 2) / 153
  let d := doy - (153 * mp + 2) / 5 + 1
  let m := if mp < 10 then mp + 3 else mp - 9
  let y : Int := (yoe : Int) + era * 400 + (if m ≤ 2 then 1 else 0)
  let year :=
    if 0 ≤ y ∧ y ≤ 9999 then pad4 y.toNat
    else (if y < 0 then "-" else "+") ++ pad6 y.natAbs
  String.mk ((year ++ "-" ++ pad2 m ++ "-" ++ pad2 d).data.take 10)

/-- The expression `d.toISOString().slice(0, 10)` for a date with time value `t`:
`toISOString` throws on an invalid date. -/
def toISODate (t : Int) : Except JSError String :=
  if validTime t then .ok (isoDate (t / msPerDay)) else .error .rangeError

/-- The function `today` when the clock reads the time value `now` -/
def today (now : Int) : String := isoDate (now / msPerDay)

/-- The host's time zone: the offset of local time from UTC in milliseconds, as a
function of the UTC time value (`offsetAtUTC`) and of the local time value
(`offsetAtLocal`). -/
structure Host where
  offsetAtUTC : Int → Int
  offsetAtLocal : Int → Int

/-- The time value after `d.setDate(d.getDate() + k)` on a date with time value `now`:
the local time is moved by `k` days and read back as UTC. -/
def shiftedTime (host : Host) (now : Int) (k : Nat) : Int :=
  let moved := now + host.offsetAtUTC now + (k : Int) * msPerDay
  moved - host.offsetAtLocal moved

/-- The host's offset from UTC is the same at `now` and at the local time `k` days on -/
abbrev SameOffset (host : Host) (now : Int) (k : Nat) : Prop :=
  host.offsetAtLocal (now + host.offsetAtUTC now + (k : Int) * msPerDay) = host.offsetAtUTC now

/-! ## Data model -/

/-- A vocabulary item; optional fields are `none` when `undefined` -/
structure WordEntry where
  word : String
  kanji : Option String := none
  partOfSpeech : Option String := none
  translation : String
  «example» : Option String := none
  related : Option String := none
  deriving DecidableEq, Repr

/-- The record that `mark` appends to a history -/
structure HistoryRecord where
  date : String
  result : String
  deriving DecidableEq, Repr

/-- An element of a stored history: a record, or any other value, given by its JSON text -/
inductive HistoryItem where
  | record (r : HistoryRecord)
  | other (json : String)
  deriving DecidableEq, Repr

/-- The value stored as the history of a state. `falsy` is a missing history, `null`,
`false`, `0` or `""`; `iterable` is an array with its elements, or a non-empty string
with its characters as elements; `notIterable` is every other value: an object, a number
other than 0, `true`. -/
inductive HistoryVal where
  | falsy
  | iterable (items : List HistoryItem)
  | notIterable
  deriving DecidableEq, Repr

/-- The spread `[...(history || [])]`, which throws on a value that is not iterable -/
def HistoryVal.spread : HistoryVal → Except JSError (List HistoryItem)
  | .falsy => .ok []
  | .iterable items => .ok items
  | .notIterable => .error .typeError

/-- The review state stored for one identity -/
structure ReviewState where
  level : JSNum
  due : String
  history : HistoryVal
  deriving DecidableEq, Repr

/-- The review-state store `srs`: an object keyed by identity strings -/
abbrev Store := String → Option ReviewState

/-- The expression `v.kanji || v.word`: the kanji unless it is missing or empty -/
def kanjiOrWord (v : WordEntry) : String :=
  match v.kanji with
  | some k => if k = "" then v.word else k
  | none => v.word

/-- The function `uid`: the template string of `v.kanji || v.word`, a bar, and `v.word` -/
def uid (v : WordEntry) : String := kanjiOrWord v ++ "|" ++ v.word

/-! ## Scheduler -/

/-- The interval ladder -/
def INTERVALS : List Nat := [0, 1, 3, 7, 14]

/-- The lookup `INTERVALS[x]`: a ladder entry for an integral index inside the
array, `undefined` (here `none`) for every other number. -/
def intervalsAt : JSNum → Option Nat
  | .int n => if 0 ≤ n then INTERVALS[n.toNat]? else none
  | .nan => none

/-- The function `scheduleNext` on a host, for a date `now` with a valid time value.
When the lookup is `undefined` the sum `d.getDate() + undefined` is `NaN` and
`setDate(NaN)` invalidates the date; `setDate` also invalidates a date that it moves out
of the range of `Date`; and `toISOString` throws on an invalid date. -/
def scheduleNext (host : Host) (now : Int) (level : JSNum) : Except JSError String :=
  match intervalsAt (mathMax (.int 0) (mathMin level (.int ((INTERVALS.length : Int) - 1)))) with
  | some k => toISODate (shiftedTime host now k)
  | none => .error .rangeError

/-- The state `prev` that `mark` starts from: `srs[id]`, or the default state -/
def prevState (srs : Store) (id : String) (now : Int) : ReviewState :=
  (srs id).getD { level := .int 0, due := today now, history := .iterable [] }

/-- The level `mark` computes: `pass ? Math.min(4, prev.level + 1) : 0` -/
def nextLevel (prev : ReviewState) (pass : Bool) : JSNum :=
  if pass then mathMin (.int 4) (prev.level.add (.int 1)) else .int 0

/-- The store update of `Flashcards.mark` for the card with identity `id`, graded when
the clock reads `now`: the store handed to `onUpdateSrs`, or the error thrown. The due
date is computed first, then the new history is spread from the old one. -/
def mark (host : Host) (srs : Store) (id : String) (now : Int) (pass : Bool) :
    Except JSError Store :=
  let prev := prevState srs id now
  let level := nextLevel prev pass
  match scheduleNext host now level with
  | .error e => .error e
  | .ok due =>
    match prev.history.spread with
    | .error e => .error e
    | .ok items =>
      .ok (fun k =>
        if k = id then
          some { level := level, due := due,
                 history := .iterable (items ++
                   [.record { date := today now, result := if pass then "pass" else "fail" }]) }
        else srs k)

/-- The memo `dueToday` of `App`, with `t` the value of `today()` -/
def dueToday (data : List WordEntry) (srs : Store) (t : String) : List WordEntry :=
  data.filter (fun v =>
    match srs (uid v) with
    | none => true
    | some st => jsStrLe st.due t)

/-! ## Sample data and stated properties -/

/-- A host on UTC -/
def utcHost : Host := { offsetAtUTC := fun _ => 0, offsetAtLocal := fun _ => 0 }

/-- A host in London in 2026: one hour ahead of UTC from 2026-03-29T01:00Z until
2026-10-25T01:00Z; a local time that is skipped or repeated takes the offset in force
before the change. -/
def londonHost : Host :=
  { offsetAtUTC := fun t => if 1774746000000 ≤ t ∧ t < 1792890000000 then 3600000 else 0
    offsetAtLocal := fun t => if 1774749600000 ≤ t ∧ t < 1792893600000 then 3600000 else 0 }

/-- The time value of 2026-11-06T00:00Z, the start of day 20763 -/
def sampleNow : Int := 1793923200000

/-- The time value of 2026-10-24T23:30Z, in the last hour of summer time in London -/
def londonEvening : Int := 1792884600000

/-- A store holding one state, with level `-3`, under the identity `ねこ|ねこ` -/
def storeNegativeLevel : Store := fun k =>
  if k = "ねこ|ねこ" then some { level := .int (-3), due := "2026-11-01", history := .iterable [] }
  else none

/-- A store holding, under the identity `ねこ|ねこ`, a state without a numeric level, such
as the object `{"due": "2026-11-01", "history": []}` of an imported progress file -/
def storeNoLevel : Store := fun k =>
  if k = "ねこ|ねこ" then some { level := .nan, due := "2026-11-01", history := .iterable [] }
  else none

/-- A store holding, under the identity `ねこ|ねこ`, a state whose history is an object,
such as `{"level": 1, "due": "2026-11-01", "history": {}}` of an imported progress file -/
def storeObjectHistory : Store := fun k =>
  if k = "ねこ|ねこ" then some { level := .int 1, due := "2026-11-01", history := .notIterable }
  else none

/-- The claim that `mark` writes a state whose due date is the grading day plus the
ladder entry at the written level -/
def DueIsLadderAtWrittenLevel (host : Host) (srs : Store) (id : String) (now : Int)
    (pass : Bool) : Prop :=
  ∃ next st k, mark host srs id now pass = .ok next ∧ next id = some st ∧
    intervalsAt st.level = some k ∧ st.due = isoDate (now / msPerDay + k)

/-- A level clamped into the ladder's index range `[0, 4]` -/
def clampLevel (n : Int) : Nat := (max 0 (min n 4)).toNat

/-- Every due instant that `scheduleNext` can compute from `now` is a valid date: this
fails only within days of the ends of the range of `Date`. -/
abbrev DueDatesValid (host : Host) (now : Int) : Prop :=
  ∀ k ∈ INTERVALS, validTime (shiftedTime host now k) = true

/-- The built-in word list -/
def SAMPLE : List WordEntry := [
  { word := "あいじょう", kanji := some "愛情", partOfSpeech := some "名", translation := "爱;爱情;热爱",
    «example» := some "母の愛情(母爱)" },
  { word := "あいづち", kanji := some "相槌", partOfSpeech := some "名", translation := "随声附和;帮腔",
    «example» := some "相槌を打つ(打帮腔)" },
  { word := "あかじ", kanji := some "赤字", partOfSpeech := some "名", translation := "赤字;亏空",
    «example» := some "赤字を出す(出现赤字)" },
  { word := "いざかや", kanji := some "居酒屋", partOfSpeech := some "名", translation := "日式小酒馆" },
  { word := "いしき", kanji := some "意識", partOfSpeech := some "名", translation := "意识",
    «example» := some "意識を失う(失去知觉)" }]

/-- The empty store `{}` -/
def emptyStore : Store := fun _ => none

/-- A store holding one state, with level `3` and one record of history, under the
identity `ねこ|ねこ` -/
def storeLevelThree : Store := fun k =>
  if k = "ねこ|ねこ" then
    some { level := .int 3, due := "2026-11-01",
           history := .iterable [.record ⟨"2026-10-25", "pass"⟩] }
  else none

/-! ## Shuffle and session -/

/-- The outcomes of `Math.floor(Math.random() * (i + 1))`, one for each loop index `i`:
a number in `0..i`. -/
abbrev Draw := (i : Nat) → Fin (i + 1)

/-- The destructuring assignment `[a[i], a[j]] = [a[j], a[i]]` for indices inside the
array (the only ones the loop of `shuffle` produces). -/
def swap {α : Type} (a : List α) (i j : Nat) : List α :=
  match a[i]?, a[j]? with
  | some x, some y => (a.set i y).set j x
  | _, _ => a

/-- The loop of `shuffle`, from index `i` down to 1 -/
def shuffleLoop {α : Type} (draw : Draw) : Nat → List α → List α
  | 0, a => a
  | i + 1, a => shuffleLoop draw i (swap a (i + 1) (draw (i + 1)).val)

/-- The function `shuffle`: the copy `arr.slice()` shuffled from the last index down;
the argument is a value, so the caller's array is what it was. -/
def shuffle {α : Type} (draw : Draw) (arr : List α) : List α :=
  shuffleLoop draw (arr.length - 1) arr

/-- The two arrays in scope while `shuffle` runs: the caller's `arr` and the local `a` -/
structure ShuffleFrame (α : Type) where
  arr : List α
  a : List α

/-- The loop of `shuffle` on its frame: every pass assigns to elements of `a` only -/
def shuffleFrameLoop {α : Type} (draw : Draw) : Nat → ShuffleFrame α → ShuffleFrame α
  | 0, fr => fr
  | i + 1, fr => shuffleFrameLoop draw i { fr with a := swap fr.a (i + 1) (draw (i + 1)).val }

/-- The frame of `shuffle` when it returns, starting from `a = arr.slice()` -/
def shuffleFrame {α : Type} (draw : Draw) (arr : List α) : ShuffleFrame α :=
  shuffleFrameLoop draw (arr.length - 1) { arr := arr, a := arr }

/-- The session built by the effect of `Practice`: `shuffle(base).slice(0, count)` with
`base = pool.length ? pool : all`, for a count that is a non-negative integer. -/
def session (draw : Draw) (pool all : List WordEntry) (count : Nat) : List WordEntry :=
  let base := if pool.length ≠ 0 then pool else all
  (shuffle draw base).take count

/-- Choice sequences for a list of length `n`: a draw `j_i` in `0..i` for each index
`i < n` (the draw at index 0 has the single value 0 and is never consulted). -/
abbrev Draws (n : Nat) := (i : Fin n) → Fin (i.val + 1)

/-- A choice sequence as outcomes of all draws, with 0 beyond the list -/
def Draws.extend {n : Nat} (d : Draws n) : Draw :=
  fun i => if h : i < n then d ⟨i, h⟩ else 0

/-- The draws that always come out 0 -/
def drawZero : Draw := fun _ => 0

/-- The draws that always come out highest, so that every swap is with itself -/
def drawLast : Draw := fun i => Fin.last i

/-! ## Vocabulary import -/

/-- The values a field of an imported record can hold in this model: absent
(`undefined`), `null`, a boolean, an integral number (below `10 ^ 21` in magnitude, which
`String` prints in plain digits), or a string. -/
inductive JSVal where
  | undefined
  | null
  | bool (b : Bool)
  | num (n : Int)
  | str (s : String)
  deriving DecidableEq, Repr

/-- Truthiness, as tested by `||` and `? :` -/
def JSVal.truthy : JSVal → Bool
  | .undefined => false
  | .null => false
  | .bool b => b
  | .num n => n != 0
  | .str s => s != ""

/-- The conversion `String(x)` -/
def JSVal.toStr : JSVal → String
  | .undefined => "undefined"
  | .null => "null"
  | .bool b => if b then "true" else "false"
  | .num n => toString n
  | .str s => s

/-- The operator `a || b` -/
def JSVal.or (a b : JSVal) : JSVal := if a.truthy then a else b

/-- The characters that `trim` strips: white space and line terminators -/
def isJSSpace (c : Char) : Bool :=
  let n := c.toNat
  n == 0x09 || n == 0x0A || n == 0x0B || n == 0x0C || n == 0x0D || n == 0x20 || n == 0xA0 ||
  n == 0x1680 || (0x2000 ≤ n && n ≤ 0x200A) || n == 0x2028 || n == 0x2029 || n == 0x202F ||
  n == 0x205F || n == 0x3000 || n == 0xFEFF

/-- The method `trim` -/
def jsTrim (s : String) : String :=
  String.mk ((s.data.dropWhile isJSSpace).reverse.dropWhile isJSSpace).reverse

/-- An element of the imported array, as the function reading its properties -/
abbrev RawRecord := String → JSVal

/-- The expression `it.k ? String(it.k).trim() : rest` -/
def trimmedOr (x : JSVal) (rest : Option String) : Option String :=
  if x.truthy then some (jsTrim x.toStr) else rest

/-- The object that `onLoadFile` maps an imported record to -/
def normalize (it : RawRecord) : WordEntry :=
  { word := jsTrim ((((it "word").or (it "kana")).or (it "reading")).or (.str "")).toStr
    kanji := trimmedOr (it "kanji") (trimmedOr (it "kanji_word") none)
    partOfSpeech :=
      let p := jsTrim ((((it "partOfSpeech").or (it "pos")).or (it "part_of_speech")).or
        (.str "")).toStr
      if p = "" then none else some p
    translation :=
      jsTrim (((((((it "translation").or (it "cn")).or (it "zh")).or (it "definition")).or
        (it "meaning")).or (it "中文")).or (it "释义")).toStr
    «example» := trimmedOr (it "example") (trimmedOr (it "例句") none)
    related := trimmedOr (it "related") none }

/-- The word list that `onLoadFile` hands to `setData`, or the error it raises, for the
value `JSON.parse` returned: `none` when that value is not an array, else its elements. -/
def onLoadFile (parsed : Option (List RawRecord)) : Except JSError (List WordEntry) :=
  match parsed with
  | none => .error (.error "JSON 须为数组")
  | some arr =>
    let norm := (arr.map normalize).filter (fun v => v.word != "" && v.translation != "")
    if norm.length = 0 then .error (.error "未解析到有效词条") else .ok norm

/-- The imported record `{"word": "ねこ"}`, which has no translation under any alias -/
def recordWithoutTranslation : RawRecord := fun k => if k = "word" then .str "ねこ" else .undefined

/-- The imported record `{"kana": " いぬ ", "cn": "狗"}` -/
def recordWithAliases : RawRecord := fun k =>
  if k = "kana" then .str " いぬ " else if k = "cn" then .str "狗" else .undefined

/-- The imported record `{"word": "   ", "translation": "x"}` -/
def recordBlankWord : RawRecord := fun k =>
  if k = "word" then .str "   " else if k = "translation" then .str "x" else .undefined

/-- A kana-only entry: the word `ねこ` with no kanji -/
def entryKanaOnly : WordEntry := { word := "ねこ", translation := "猫" }

/-- An entry for the word `ねこ` whose kanji field repeats the word -/
def entryKanjiIsWord : WordEntry := { word := "ねこ", kanji := some "ねこ", translation := "猫" }

/-- An entry for the word `ねこ` with the kanji `猫` -/
def entryWithKanji : WordEntry := { word := "ねこ", kanji := some "猫", translation := "猫" }

/-! ## Progress summary -/

/-- The statement `res.levels[x]++` for an index inside the array; on `NaN` the
increment lands on a property outside the five counters. -/
def bump (levels : List Nat) : JSNum → List Nat
  | .int n =>
    if 0 ≤ n ∧ n.toNat < levels.length then
      levels.set n.toNat (levels.getD n.toNat 0 + 1)
    else levels
  | .nan => levels

/-- The body of the `forEach` in `stats`, on the pair of `res.levels` and `res.due` -/
def statsStep (srs : Store) (t : String) (res : List Nat × Nat) (v : WordEntry) :
    List Nat × Nat :=
  match srs (uid v) with
  | none => (bump res.1 (.int 0), res.2 + 1)
  | some st =>
    (bump res.1 (mathMax (.int 0) (mathMin (.int 4) st.level)),
      if jsStrLe st.due t then res.2 + 1 else res.2)

/-- The integer nearest to `a / b`, an exact half going to the even neighbour -/
def roundHalfEven (a b : Nat) : Nat :=
  if 2 * (a % b) < b then a / b
  else if b < 2 * (a % b) then a / b + 1
  else if a / b % 2 = 0 then a / b else a / b + 1

/-- The least number from `start` on that satisfies `p`, searched for `fuel` steps -/
def leastFrom (p : Nat → Bool) : Nat → Nat → Nat
  | 0, start => start
  | fuel + 1, start => if p start then start else leastFrom p fuel (start + 1)

/-- The double nearest to `learned / total`, for `0 < learned < 2 ^ 53` and `0 < total`:
the pair of `m` and `s` with value `m / 2 ^ s`, where `s` is the least shift that gives
`m` its 53 bits. -/
def quotientDouble (learned total : Nat) : Nat × Nat :=
  let s := leastFrom (fun s => decide (total * 2 ^ 52 ≤ learned * 2 ^ s)) (total + 53) 0
  (roundHalfEven (learned * 2 ^ s) total, s)

/-- The double nearest to `100 * (m / 2 ^ s)`, as the numerator `x` of `x / 2 ^ s`: the
product `100 * m` rounded to 53 bits. -/
def timesHundredDouble (m : Nat) : Nat :=
  let r := leastFrom (fun r => decide (100 * m < 2 ^ (53 + r))) (100 * m + 1) 0
  roundHalfEven (100 * m) (2 ^ r) * 2 ^ r

/-- The expression `total ? Math.round((learned / total) * 100) : 0` in double
arithmetic, for counts below `2 ^ 53`: the quotient and the product are each rounded to
the nearest double, and `Math.round` is the floor of its argument plus one half. -/
def roundRate (learned total : Nat) : Nat :=
  if total = 0 then 0
  else if learned = 0 then 0
  else
    let q := quotientDouble learned total
    (2 * timesHundredDouble q.1 + 2 ^ q.2) / 2 ^ (q.2 + 1)

/-- The object `stats` of `ProgressPanel` -/
structure Stats where
  total : Nat
  levels : List Nat
  due : Nat
  learned : Nat
  rate : Nat
  deriving DecidableEq, Repr

/-- The memo `stats` of `ProgressPanel`, with `t` the value of `today()` -/
def stats (data : List WordEntry) (srs : Store) (t : String) : Stats :=
  let res := data.foldl (statsStep srs t) ([0, 0, 0, 0, 0], 0)
  let learned := res.1.getD 1 0 + res.1.getD 2 0 + res.1.getD 3 0 + res.1.getD 4 0
  { total := data.length, levels := res.1, due := res.2, learned := learned,
    rate := roundRate learned data.length }

/-- The number of entries whose stored level equals `i`, entries with no stored state
counting for `i = 0`: the count the summary is said to report. -/
def countStoredLevel (data : List WordEntry) (srs : Store) (i : Nat) : Nat :=
  (data.filter (fun v =>
    match srs (uid v) with
    | none => i == 0
    | some st => st.level == .int i)).length

/-- The counter an entry lands in: 0 with no stored state, the stored level clamped into
`[0, 4]` when it is an integer, and none when it is not a number. -/
def bucket (srs : Store) (v : WordEntry) : Option Nat :=
  match srs (uid v) with
  | none => some 0
  | some st =>
    match st.level with
    | .int n => some (clampLevel n)
    | .nan => none

/-- The number of entries that land in counter `i` -/
def countBucket (data : List WordEntry) (srs : Store) (i : Nat) : Nat :=
  (data.filter (fun v => bucket srs v == some i)).length

/-- A store holding one state, with level `7`, under the identity of `entryKanaOnly` -/
def storeLevelSeven : Store := fun k =>
  if k = "ねこ|ねこ" then some { level := .int 7, due := "2026-11-01", history := .iterable [] } else none

/-- A store for the sample list: three entries at levels 1, 2 and 4, one at level 0 and
one with no stored state. -/
def storeSample : Store := fun k =>
  if k = "愛情|あいじょう" then some { level := .int 1, due := "2026-11-07", history := .iterable [] }
  else if k = "相槌|あいづち" then some { level := .int 2, due := "2026-11-09", history := .iterable [] }
  else if k = "赤字|あかじ" then some { level := .int 4, due := "2026-11-20", history := .iterable [] }
  else if k = "居酒屋|いざかや" then some { level := .int 0, due := "2026-11-06", history := .iterable [] }
  else none

/-! ## Multiple choice -/

/-- The array `items.filter((_, i) => i !== idx)` -/
def withoutIndex {α : Type} (items : List α) (idx : Nat) : List α :=
  (items.enum.filter (fun p => p.1 != idx)).map Prod.snd

/-- The call `opts.findIndex((v) => v === cur)`: the first index holding `cur`, or -1 -/
def findIndex {α : Type} [DecidableEq α] (opts : List α) (cur : α) : Int :=
  match opts.findIdx? (fun v => v == cur) with
  | some i => (i : Int)
  | none => -1

/-- The state that the options effect of `MultipleChoice` sets -/
structure ChoiceState (α : Type) where
  options : List α
  correctIdx : Int

/-- The options effect of `MultipleChoice` for the session `items` at index `idx`, with
the draws of its two shuffles. The objects of the session are the values of `α`, and
`===` is their equality. -/
def multipleChoiceOptions {α : Type} [DecidableEq α] (draw₁ draw₂ : Draw) (items : List α)
    (idx : Nat) : ChoiceState α :=
  match items[idx]? with
  | none => { options := [], correctIdx := -1 }
  | some cur =>
    let others := (shuffle draw₁ (withoutIndex items idx)).take 3
    let opts := shuffle draw₂ (cur :: others)
    { options := opts, correctIdx := findIndex opts cur }

/-! ## Flashcard session -/

/-- The state a flashcard session lives in: the word list `data` and the store `srs` of
`App`, the `count` and `session` of `Practice`, and the index `idx` of `Flashcards`. -/
structure PracticeState where
  data : List WordEntry
  srs : Store
  count : Nat
  session : List WordEntry
  idx : Nat

/-- A click on a grade button of `Flashcards` at time `now`, with the renders it causes.
The handler `mark` hands a new store object to `setSrs` and moves the index to
`Math.min(total - 1, i + 1)`. In the next render the memo `dueToday`, which depends on
`[data, srs]`, is computed again and is a new array, so the effect of `Practice`, which
depends on `[pool, all, count]`, runs again and sets the session it builds from that
pool, with the draws `draw`. Without a current card there is no button and nothing changes;
when `mark` throws no state is set. -/
def markAndRender (host : Host) (draw : Draw) (now : Int) (pass : Bool)
    (s : PracticeState) : Except JSError PracticeState :=
  match s.session[s.idx]? with
  | none => .ok s
  | some cur =>
    match mark host s.srs (uid cur) now pass with
    | .error e => .error e
    | .ok next =>
      .ok { data := s.data
            srs := next
            count := s.count
            session := session draw (dueToday s.data next (today now)) s.data s.count
            idx := min (s.session.length - 1) (s.idx + 1) }

/-- A practice session on the sample list with nothing stored, as built on 2026-11-06
(day 20763) with draws that leave the order alone: all five entries are due and in the
session. -/
def sampleSession : PracticeState :=
  { data := SAMPLE
    srs := emptyStore
    count := 20
    session := session drawLast (dueToday SAMPLE emptyStore (today sampleNow)) SAMPLE 20
    idx := 0 }

/-- Three pass grades in a row on `sampleSession`, all on 2026-11-06 on a host on UTC -/
def sampleSessionAfterThreePasses : Except JSError PracticeState :=
  (markAndRender utcHost drawLast sampleNow true sampleSession).bind fun s₁ =>
    (markAndRender utcHost drawLast sampleNow true s₁).bind fun s₂ =>
      markAndRender utcHost drawLast sampleNow true s₂

/-! # Theorems -/

/-! ## Scheduler lemmas -/

theorem clampLevel_cases (n : Int) :
    (n ≤ 0 ∧ clampLevel n = 0) ∨ (n = 1 ∧ clampLevel n = 1) ∨ (n = 2 ∧ clampLevel n = 2) ∨
    (n = 3 ∧ clampLevel n = 3) ∨ (4 ≤ n ∧ clampLevel n = 4) := by
  unfold clampLevel
  omega

theorem intervalsAt_clamp (n : Int) :
    intervalsAt (mathMax (.int 0) (mathMin (.int n) (.int ((INTERVALS.length : Int) - 1)))) =
      INTERVALS[clampLevel n]? := by
  have hlen : ((INTERVALS.length : Int) - 1) = 4 := by decide
  rw [hlen]
  simp only [mathMin, mathMax, intervalsAt, clampLevel]
  rw [if_pos (le_max_left _ _)]

theorem intervals_clamp_isSome (n : Int) : ∃ k, INTERVALS[clampLevel n]? = some k := by
  rcases clampLevel_cases n with h | h | h | h | h <;> rw [h.2] <;> exact ⟨_, rfl⟩

theorem mem_intervals_of_getElem? (c k : Nat) (h : INTERVALS[c]? = some k) : k ∈ INTERVALS := by
  obtain ⟨hc, rfl⟩ := List.getElem?_eq_some.1 h
  exact List.getElem_mem _

/-- With the same offset at both ends, `setDate` moves the time value by whole days -/
theorem shiftedTime_of_sameOffset (host : Host) (now : Int) (k : Nat)
    (h : SameOffset host now k) : shiftedTime host now k = now + (k : Int) * msPerDay := by
  unfold shiftedTime
  simp only
  rw [h]
  omega

theorem day_add_days (now : Int) (k : Nat) :
    (now + (k : Int) * msPerDay) / msPerDay = now / msPerDay + k :=
  Int.add_mul_ediv_right now k (by decide)

theorem toISODate_of_valid (t : Int) (h : validTime t = true) :
    toISODate t = .ok (isoDate (t / msPerDay)) := by
  simp [toISODate, h]

theorem toISODate_of_invalid (t : Int) (h : validTime t = false) :
    toISODate t = .error .rangeError := by
  simp [toISODate, h]

theorem scheduleNext_int (host : Host) (now : Int) (n : Int) (k : Nat)
    (hk : INTERVALS[clampLevel n]? = some k) :
    scheduleNext host now (.int n) = toISODate (shiftedTime host now k) := by
  unfold scheduleNext
  rw [intervalsAt_clamp, hk]

theorem scheduleNext_nan (host : Host) (now : Int) :
    scheduleNext host now .nan = .error .rangeError := rfl

/-- The only error of `scheduleNext` is the `RangeError` of `toISOString` -/
theorem scheduleNext_error (host : Host) (now : Int) (level : JSNum) (e : JSError)
    (h : scheduleNext host now level = .error e) : e = .rangeError := by
  cases level with
  | nan =>
    rw [scheduleNext_nan] at h
    exact (Except.error.inj h).symm
  | int n =>
    obtain ⟨k, hk⟩ := intervals_clamp_isSome n
    rw [scheduleNext_int host now n k hk] at h
    cases hv : validTime (shiftedTime host now k) with
    | true => rw [toISODate_of_valid _ hv] at h; cases h
    | false =>
      rw [toISODate_of_invalid _ hv] at h
      exact (Except.error.inj h).symm

theorem nextLevel_fail (prev : ReviewState) : nextLevel prev false = .int 0 := rfl

theorem nextLevel_pass_int (prev : ReviewState) (n : Int) (h : prev.level = .int n) :
    nextLevel prev true = .int (min 4 (n + 1)) := by
  simp [nextLevel, h, JSNum.add, mathMin]

theorem nextLevel_pass_nan (prev : ReviewState) (h : prev.level = .nan) :
    nextLevel prev true = .nan := by
  simp [nextLevel, h, JSNum.add, mathMin]

/-- The level `mark` computes is an integer on a fail and on a pass from an integer -/
theorem nextLevel_int (prev : ReviewState) (pass : Bool)
    (h : pass = false ∨ ∃ m, prev.level = .int m) : ∃ n, nextLevel prev pass = .int n := by
  cases pass with
  | false => exact ⟨0, rfl⟩
  | true =>
    rcases h with h | ⟨m, hm⟩
    · cases h
    · exact ⟨_, nextLevel_pass_int _ m hm⟩

theorem spread_of_ne_notIterable (h : HistoryVal) (hne : h ≠ .notIterable) :
    ∃ items, h.spread = .ok items := by
  cases h with
  | falsy => exact ⟨[], rfl⟩
  | iterable items => exact ⟨items, rfl⟩
  | notIterable => exact absurd rfl hne

theorem spread_error (h : HistoryVal) (e : JSError) (he : h.spread = .error e) :
    h = .notIterable ∧ e = .typeError := by
  cases h with
  | falsy => cases he
  | iterable items => cases he
  | notIterable => exact ⟨rfl, (Except.error.inj he).symm⟩

/-- What `mark` returns when the due date and the spread of the history are there -/
theorem mark_of_ok (host : Host) (srs : Store) (id : String) (now : Int) (pass : Bool)
    (due : String) (items : List HistoryItem)
    (hdue : scheduleNext host now (nextLevel (prevState srs id now) pass) = .ok due)
    (hitems : (prevState srs id now).history.spread = .ok items) :
    mark host srs id now pass = .ok (fun j =>
      if j = id then
        some { level := nextLevel (prevState srs id now) pass, due := due,
               history := .iterable (items ++
                 [.record { date := today now, result := if pass then "pass" else "fail" }]) }
      else srs j) := by
  unfold mark
  simp only [hdue, hitems]

/-- The function `mark` throws what `scheduleNext` throws -/
theorem mark_of_schedule_error (host : Host) (srs : Store) (id : String) (now : Int)
    (pass : Bool) (e : JSError)
    (hdue : scheduleNext host now (nextLevel (prevState srs id now) pass) = .error e) :
    mark host srs id now pass = .error e := by
  unfold mark
  simp only [hdue]

/-- The function `mark` throws what the spread of the history throws -/
theorem mark_of_spread_error (host : Host) (srs : Store) (id : String) (now : Int)
    (pass : Bool) (due : String) (e : JSError)
    (hdue : scheduleNext host now (nextLevel (prevState srs id now) pass) = .ok due)
    (hitems : (prevState srs id now).history.spread = .error e) :
    mark host srs id now pass = .error e := by
  unfold mark
  simp only [hdue, hitems]

/-- Every successful `mark` wrote the integer level it computed, the due date that
`scheduleNext` returned for it, and the spread history with one record more -/
theorem mark_ok_inv (host : Host) (srs : Store) (id : String) (now : Int) (pass : Bool)
    (next : Store) (h : mark host srs id now pass = .ok next) :
    ∃ n k items, nextLevel (prevState srs id now) pass = .int n ∧
      INTERVALS[clampLevel n]? = some k ∧
      validTime (shiftedTime host now k) = true ∧
      (prevState srs id now).history.spread = .ok items ∧
      next = (fun j =>
        if j = id then
          some { level := .int n, due := isoDate (shiftedTime host now k / msPerDay),
                 history := .iterable (items ++
                   [.record { date := today now, result := if pass then "pass" else "fail" }]) }
        else srs j) := by
  cases hdue : scheduleNext host now (nextLevel (prevState srs id now) pass) with
  | error e => rw [mark_of_schedule_error host srs id now pass e hdue] at h; cases h
  | ok due =>
    cases hitems : (prevState srs id now).history.spread with
    | error e => rw [mark_of_spread_error host srs id now pass due e hdue hitems] at h; cases h
    | ok items =>
      rw [mark_of_ok host srs id now pass due items hdue hitems] at h
      cases hn : nextLevel (prevState srs id now) pass with
      | nan => rw [hn, scheduleNext_nan] at hdue; cases hdue
      | int n =>
        obtain ⟨k, hk⟩ := intervals_clamp_isSome n
        rw [hn, scheduleNext_int host now n k hk] at hdue
        cases hv : validTime (shiftedTime host now k) with
        | false => rw [toISODate_of_invalid _ hv] at hdue; cases hdue
        | true =>
          rw [toISODate_of_valid _ hv] at hdue
          have hd := Except.ok.inj hdue
          refine ⟨n, k, items, rfl, hk, hv, rfl, ?_⟩
          rw [← Except.ok.inj h, hn, hd]

/-- One grading step whose computed level is the integer `n` -/
theorem mark_step (host : Host) (srs : Store) (id : String) (now : Int) (pass : Bool)
    (n : Int) (k : Nat) (hn : nextLevel (prevState srs id now) pass = .int n)
    (hk : INTERVALS[clampLevel n]? = some k)
    (hv : validTime (shiftedTime host now k) = true)
    (hh : (prevState srs id now).history ≠ .notIterable) :
    ∃ next st, mark host srs id now pass = .ok next ∧ next id = some st ∧
      st.level = .int n ∧ st.due = isoDate (shiftedTime host now k / msPerDay) ∧
      st.history ≠ .notIterable := by
  obtain ⟨items, hitems⟩ := spread_of_ne_notIterable _ hh
  have hdue : scheduleNext host now (nextLevel (prevState srs id now) pass) =
      .ok (isoDate (shiftedTime host now k / msPerDay)) := by
    rw [hn, scheduleNext_int host now n k hk, toISODate_of_valid _ hv]
  refine ⟨_, _, mark_of_ok host srs id now pass _ items hdue hitems, if_pos rfl, hn, rfl, ?_⟩
  intro hc
  cases hc

/-- The function `mark` writes a state on every fail and on every pass from an integer
level, when the stored history can be spread and the due instants are valid dates -/
theorem mark_succeeds (host : Host) (srs : Store) (id : String) (now : Int) (pass : Bool)
    (h : pass = false ∨ ∃ m, (prevState srs id now).level = .int m)
    (hh : (prevState srs id now).history ≠ .notIterable) (hv : DueDatesValid host now) :
    ∃ next, mark host srs id now pass = .ok next := by
  obtain ⟨n, hn⟩ := nextLevel_int _ pass h
  obtain ⟨k, hk⟩ := intervals_clamp_isSome n
  obtain ⟨next, _, hm, -⟩ := mark_step host srs id now pass n k hn hk
    (hv k (mem_intervals_of_getElem? _ _ hk)) hh
  exact ⟨next, hm⟩

/-- On an integer inside the ladder the raw lookup and the clamped lookup agree -/
theorem intervalsAt_of_nonneg (n : Int) (h0 : 0 ≤ n) (h4 : n ≤ 4) :
    intervalsAt (.int n) = INTERVALS[clampLevel n]? := by
  have : clampLevel n = n.toNat := by unfold clampLevel; omega
  simp [intervalsAt, h0, this]

/-- The level `mark` computes is never above 4 -/
theorem nextLevel_le_four (prev : ReviewState) (pass : Bool) (n : Int)
    (h : nextLevel prev pass = .int n) : n ≤ 4 := by
  cases pass with
  | false => rw [nextLevel_fail] at h; cases h; decide
  | true =>
    cases hl : prev.level with
    | nan => rw [nextLevel_pass_nan prev hl] at h; cases h
    | int m =>
      rw [nextLevel_pass_int prev m hl] at h
      cases h
      exact min_le_left _ _

/-! ## String order -/

/-- The comparison on code units is the strict lexicographic order -/
theorem codeUnitsLt_iff_lex (a b : List Nat) :
    codeUnitsLt a b = true ↔ List.Lex (fun x y : Nat => x < y) a b := by
  induction a generalizing b with
  | nil =>
    cases b with
    | nil => simp [codeUnitsLt]
    | cons y ys => simp [codeUnitsLt, List.Lex.nil]
  | cons x xs ih =>
    cases b with
    | nil => simp [codeUnitsLt]
    | cons y ys =>
      unfold codeUnitsLt
      rcases Nat.lt_trichotomy x y with h | h | h
      · simp only [h, if_true, true_iff]
        exact List.Lex.rel h
      · subst h
        simp only [lt_irrefl, if_false, ih]
        constructor
        · exact List.Lex.cons
        · intro hl
          cases hl with
          | cons h' => exact h'
          | rel h' => exact absurd h' (lt_irrefl _)
      · have hxy : ¬ x < y := Nat.lt_asymm h
        simp only [hxy, h, if_false, if_true]
        constructor
        · intro hf; cases hf
        · intro hl
          cases hl with
          | cons h' => exact absurd h (lt_irrefl _)
          | rel h' => exact absurd h' hxy

/-! ## Level transition -/

/-- C1, as stated, fails: from a stored state whose history is an object, `mark` throws a
`TypeError` on a fail as on a pass from level 1, and stores nothing; and at the last
instant of the range of `Date` a pass from no stored state throws a `RangeError`. -/
theorem mark_level_counterexample :
    storeObjectHistory "ねこ|ねこ" =
      some { level := .int 1, due := "2026-11-01", history := .notIterable } ∧
    mark utcHost storeObjectHistory "ねこ|ねこ" sampleNow false = .error .typeError ∧
    mark utcHost storeObjectHistory "ねこ|ねこ" sampleNow true = .error .typeError ∧
    emptyStore "ねこ|ねこ" = none ∧ validTime maxTime = true ∧
    mark utcHost emptyStore "ねこ|ねこ" maxTime true = .error .rangeError :=
  ⟨rfl, rfl, rfl, rfl, by decide, rfl⟩

/-- C1 (amended): when the stored history is missing or iterable and the due instants are
valid dates, for every previous level `L` in `0..4` (no stored state counting as `L = 0`)
a pass grade makes `mark` store level `min(4, L+1)`, and from every previous state a fail
grade makes `mark` store level `0`. -/
theorem mark_level_transition (host : Host) (srs : Store) (id : String) (now : Int)
    (hh : (prevState srs id now).history ≠ .notIterable) (hv : DueDatesValid host now) :
    (∀ L : Int, 0 ≤ L → L ≤ 4 →
      ((srs id = none ∧ L = 0) ∨ ∃ st, srs id = some st ∧ st.level = .int L) →
      ∃ next st', mark host srs id now true = .ok next ∧ next id = some st' ∧
        st'.level = .int (min 4 (L + 1))) ∧
    (∃ next st', mark host srs id now false = .ok next ∧ next id = some st' ∧
      st'.level = .int 0) := by
  constructor
  · intro L _ _ hprev
    have hlev : (prevState srs id now).level = .int L := by
      rcases hprev with ⟨h, rfl⟩ | ⟨st, h, hl⟩
      · simp [prevState, h]
      · simp [prevState, h, hl]
    obtain ⟨k, hk⟩ := intervals_clamp_isSome (min 4 (L + 1))
    obtain ⟨next, st', h1, h2, h3, -⟩ := mark_step host srs id now true _ k
      (nextLevel_pass_int _ L hlev) hk (hv k (mem_intervals_of_getElem? _ _ hk)) hh
    exact ⟨next, st', h1, h2, h3⟩
  · obtain ⟨k, hk⟩ := intervals_clamp_isSome 0
    obtain ⟨next, st', h1, h2, h3, -⟩ := mark_step host srs id now false 0 k
      (nextLevel_fail _) hk (hv k (mem_intervals_of_getElem? _ _ hk)) hh
    exact ⟨next, st', h1, h2, h3⟩

/-- Witness for C1 (amended): from stored level 3 with one record of history, a pass
stores level `min 4 (3 + 1)` and a fail stores level 0 -/
theorem mark_level_transition_witness :
    (prevState storeLevelThree "ねこ|ねこ" sampleNow).history ≠ .notIterable ∧
    DueDatesValid utcHost sampleNow ∧ (0 : Int) ≤ 3 ∧ (3 : Int) ≤ 4 ∧
    (∃ next st', mark utcHost storeLevelThree "ねこ|ねこ" sampleNow true = .ok next ∧
      next "ねこ|ねこ" = some st' ∧ st'.level = .int (min 4 (3 + 1))) ∧
    (∃ next st', mark utcHost storeLevelThree "ねこ|ねこ" sampleNow false = .ok next ∧
      next "ねこ|ねこ" = some st' ∧ st'.level = .int 0) :=
  ⟨by decide, by decide, by decide, by decide,
    (mark_level_transition utcHost storeLevelThree "ねこ|ねこ" sampleNow (by decide)
      (by decide)).1 3 (by decide) (by decide) (Or.inr ⟨_, rfl, rfl⟩),
    (mark_level_transition utcHost storeLevelThree "ねこ|ねこ" sampleNow (by decide)
      (by decide)).2⟩

/-! ## Due date after a grade -/

/-- C2, as stated, fails. From stored level `-3` a pass writes level `-2` and the
grading day itself as due date, while `INTERVALS[-2]` does not exist. And on a host in
London a pass from no stored state at 2026-10-24T23:30Z, which is on the calendar day
2026-10-24, writes level 1 and the due date 2026-10-26, two days on. -/
theorem mark_due_counterexample :
    (∃ next st, mark utcHost storeNegativeLevel "ねこ|ねこ" sampleNow true = .ok next ∧
      next "ねこ|ねこ" = some st ∧ st.level = .int (-2) ∧ st.due = today sampleNow ∧
      intervalsAt st.level = none) ∧
    ¬ DueIsLadderAtWrittenLevel utcHost storeNegativeLevel "ねこ|ねこ" sampleNow true ∧
    (∃ next st, mark londonHost emptyStore "ねこ|ねこ" londonEvening true = .ok next ∧
      next "ねこ|ねこ" = some st ∧ st.level = .int 1 ∧ today londonEvening = "2026-10-24" ∧
      st.due = "2026-10-26") ∧
    ¬ DueIsLadderAtWrittenLevel londonHost emptyStore "ねこ|ねこ" londonEvening true := by
  refine ⟨⟨_, _, rfl, if_pos rfl, rfl, by decide, rfl⟩, ?_,
    ⟨_, _, rfl, if_pos rfl, rfl, by decide, by decide⟩, ?_⟩
  · rintro ⟨next, st, k, hm, hst, hk, -⟩
    have h : mark utcHost storeNegativeLevel "ねこ|ねこ" sampleNow true = .ok _ := rfl
    rw [h] at hm
    have hnext := Except.ok.inj hm
    subst hnext
    rw [if_pos rfl] at hst
    cases hst
    cases hk
  · rintro ⟨next, st, k, hm, hst, hk, hdue⟩
    have h : mark londonHost emptyStore "ねこ|ねこ" londonEvening true = .ok _ := rfl
    rw [h] at hm
    have hnext := Except.ok.inj hm
    subst hnext
    rw [if_pos rfl] at hst
    cases hst
    have hk1 : k = 1 := by
      have : intervalsAt (JSNum.int 1) = some 1 := rfl
      exact (Option.some.inj (hk.symm.trans this))
    subst hk1
    revert hdue
    decide

/-- C2 (amended): for stored levels that are integers or missing, whenever `mark` writes a
state at the instant `now`, the written level is an integer `n`, and on a host whose
offset from UTC is the same at `now` and at the local time `INTERVALS[c]` days later, `c`
being `n` clamped into `[0, 4]`, the written due date is the calendar day of `now` plus
`INTERVALS[c]` days; `INTERVALS[c]` is `INTERVALS[n]` when `n ≥ 0`. A state is written on
every fail and on every pass from an integer level, when the stored history is missing or
iterable and the due instants are valid dates. Under these conditions, from no prior
state a pass on day `D` gives level 1 due `D+1`, a second pass on day `D+1` gives level 2
due `D+4`, and a fail on a day `D'` gives level 0 due `D'`. -/
theorem mark_due_from_clamped_level (host : Host) (srs : Store) (id : String) (now : Int)
    (pass : Bool) :
    (∀ next, mark host srs id now pass = .ok next →
      ∃ st n k, next id = some st ∧ st.level = .int n ∧
        INTERVALS[clampLevel n]? = some k ∧
        (SameOffset host now k → st.due = isoDate (now / msPerDay + k)) ∧
        (0 ≤ n → intervalsAt st.level = some k)) ∧
    ((pass = false ∨ ∃ m, (prevState srs id now).level = .int m) →
      (prevState srs id now).history ≠ .notIterable → DueDatesValid host now →
      ∃ next, mark host srs id now pass = .ok next) ∧
    (srs id = none → ∀ now₁ now₂ now₃ : Int, now₂ / msPerDay = now₁ / msPerDay + 1 →
      DueDatesValid host now₁ → DueDatesValid host now₂ → DueDatesValid host now₃ →
      SameOffset host now₁ 1 → SameOffset host now₂ 3 → SameOffset host now₃ 0 →
      ∃ s1 s2 s3 st1 st2 st3,
        mark host srs id now₁ true = .ok s1 ∧ s1 id = some st1 ∧
          st1.level = .int 1 ∧ st1.due = isoDate (now₁ / msPerDay + 1) ∧
        mark host s1 id now₂ true = .ok s2 ∧ s2 id = some st2 ∧
          st2.level = .int 2 ∧ st2.due = isoDate (now₁ / msPerDay + 4) ∧
        mark host s2 id now₃ false = .ok s3 ∧ s3 id = some st3 ∧
          st3.level = .int 0 ∧ st3.due = isoDate (now₃ / msPerDay)) := by
  refine ⟨?_, mark_succeeds host srs id now pass, ?_⟩
  · intro next h
    obtain ⟨n, k, items, hn, hk, -, -, rfl⟩ := mark_ok_inv host srs id now pass next h
    refine ⟨_, n, k, if_pos rfl, rfl, hk, ?_, ?_⟩
    · intro hs
      show isoDate (shiftedTime host now k / msPerDay) = _
      rw [shiftedTime_of_sameOffset host now k hs, day_add_days]
    · intro h0
      show intervalsAt (.int n) = some k
      rw [intervalsAt_of_nonneg n h0 (nextLevel_le_four _ _ n hn), hk]
  · intro hnone now₁ now₂ now₃ hday hv1 hv2 hv3 ho1 ho2 ho3
    obtain ⟨s1, st1, h1, e1, l1, d1, n1⟩ := mark_step host srs id now₁ true 1 1
      (by simp [nextLevel, prevState, hnone, JSNum.add, mathMin]) rfl (hv1 1 (by decide))
      (by simp [prevState, hnone])
    obtain ⟨s2, st2, h2, e2, l2, d2, n2⟩ := mark_step host s1 id now₂ true 2 3
      (by simp [nextLevel, prevState, e1, l1, JSNum.add, mathMin]) rfl (hv2 3 (by decide))
      (by simpa [prevState, e1] using n1)
    obtain ⟨s3, st3, h3, e3, l3, d3, -⟩ := mark_step host s2 id now₃ false 0 0
      (nextLevel_fail _) rfl (hv3 0 (by decide)) (by simpa [prevState, e2] using n2)
    rw [shiftedTime_of_sameOffset host now₁ 1 ho1, day_add_days] at d1
    rw [shiftedTime_of_sameOffset host now₂ 3 ho2, day_add_days, hday] at d2
    rw [shiftedTime_of_sameOffset host now₃ 0 ho3, day_add_days] at d3
    refine ⟨s1, s2, s3, st1, st2, st3, h1, e1, l1, d1, h2, e2, l2, ?_, h3, e3, l3, ?_⟩
    · rw [d2]
      congr 1
      push_cast
      ring
    · rw [d3]
      congr 1
      simp

/-- Witness for C2 (amended): the chain from the empty store on a host on UTC, with a
pass at 2026-11-06T00:00Z, a pass one day later and a fail seven days later -/
theorem mark_due_from_clamped_level_witness :
    emptyStore "ねこ|ねこ" = none ∧
    (sampleNow + 86400000) / msPerDay = sampleNow / msPerDay + 1 ∧
    DueDatesValid utcHost sampleNow ∧ DueDatesValid utcHost (sampleNow + 86400000) ∧
    DueDatesValid utcHost (sampleNow + 604800000) ∧
    SameOffset utcHost sampleNow 1 ∧ SameOffset utcHost (sampleNow + 86400000) 3 ∧
    SameOffset utcHost (sampleNow + 604800000) 0 ∧
    ∃ s1 s2 s3 st1 st2 st3,
      mark utcHost emptyStore "ねこ|ねこ" sampleNow true = .ok s1 ∧ s1 "ねこ|ねこ" = some st1 ∧
        st1.level = .int 1 ∧ st1.due = isoDate (sampleNow / msPerDay + 1) ∧
      mark utcHost s1 "ねこ|ねこ" (sampleNow + 86400000) true = .ok s2 ∧
        s2 "ねこ|ねこ" = some st2 ∧
        st2.level = .int 2 ∧ st2.due = isoDate (sampleNow / msPerDay + 4) ∧
      mark utcHost s2 "ねこ|ねこ" (sampleNow + 604800000) false = .ok s3 ∧
        s3 "ねこ|ねこ" = some st3 ∧
        st3.level = .int 0 ∧ st3.due = isoDate ((sampleNow + 604800000) / msPerDay) :=
  ⟨rfl, by decide, by decide, by decide, by decide, by decide, by decide, by decide,
    (mark_due_from_clamped_level utcHost emptyStore "ねこ|ねこ" sampleNow true).2.2 rfl
      sampleNow (sampleNow + 86400000) (sampleNow + 604800000) (by decide) (by decide)
      (by decide) (by decide) (by decide) (by decide) (by decide)⟩

/-! ## Totality of the scheduler -/

/-- C3, as stated, fails. On the level `NaN` (not a valid ladder index) `scheduleNext`
throws, and so does `mark` on a pass from a stored state without a numeric level; from a
stored state with an integer level whose history is an object `mark` throws on a fail; on
a host in London `scheduleNext` at 2026-10-24T23:30Z with level 1 returns 2026-10-26, two
days on; and at the last instant of the range of `Date` it throws with level 4. -/
theorem scheduleNext_nan_counterexample :
    scheduleNext utcHost sampleNow .nan = .error .rangeError ∧
    storeNoLevel "ねこ|ねこ" =
      some { level := .nan, due := "2026-11-01", history := .iterable [] } ∧
    mark utcHost storeNoLevel "ねこ|ねこ" sampleNow true = .error .rangeError ∧
    mark utcHost storeObjectHistory "ねこ|ねこ" sampleNow false = .error .typeError ∧
    today londonEvening = "2026-10-24" ∧
    scheduleNext londonHost londonEvening (.int 1) = .ok "2026-10-26" ∧
    validTime maxTime = true ∧ scheduleNext utcHost maxTime (.int 4) = .error .rangeError :=
  ⟨rfl, rfl, rfl, rfl, by decide, by decide, by decide, by decide⟩

/-- C3 (amended): for every reference date and every integer level `n` (in range,
negative or greater than 4), with `c` the level clamped into `[0, 4]`: `scheduleNext`
raises no error exactly when the instant that `setDate` reaches with `INTERVALS[c]` days is
a valid date, and on a host whose offset from UTC is the same at `now` and at the local
time `INTERVALS[c]` days later it then returns the calendar day of `now` plus
`INTERVALS[c]` days; consequently `mark` raises no error on a fail from any stored state,
nor on a pass from a stored state whose level is an integer, when the stored history is
missing or iterable and the due instants are valid dates. -/
theorem scheduleNext_total_on_integers (host : Host) (now : Int) (n : Int) :
    (∃ k, INTERVALS[clampLevel n]? = some k ∧
      (validTime (shiftedTime host now k) = true →
        ∃ due, scheduleNext host now (.int n) = .ok due) ∧
      (validTime (shiftedTime host now k) = false →
        scheduleNext host now (.int n) = .error .rangeError) ∧
      (validTime (shiftedTime host now k) = true → SameOffset host now k →
        scheduleNext host now (.int n) = .ok (isoDate (now / msPerDay + k)))) ∧
    (clampLevel n ≤ 4 ∧ (n ≤ 0 → clampLevel n = 0) ∧ (4 ≤ n → clampLevel n = 4) ∧
      (0 ≤ n → n ≤ 4 → (clampLevel n : Int) = n)) ∧
    (∀ (srs : Store) (id : String) (pass : Bool),
      (pass = false ∨ ∃ m, (prevState srs id now).level = .int m) →
      (prevState srs id now).history ≠ .notIterable → DueDatesValid host now →
      ∃ next, mark host srs id now pass = .ok next) := by
  refine ⟨?_, ?_, fun srs id pass h hh hv => mark_succeeds host srs id now pass h hh hv⟩
  · obtain ⟨k, hk⟩ := intervals_clamp_isSome n
    refine ⟨k, hk, ?_, ?_, ?_⟩
    · intro hv
      exact ⟨_, by rw [scheduleNext_int host now n k hk, toISODate_of_valid _ hv]⟩
    · intro hv
      rw [scheduleNext_int host now n k hk, toISODate_of_invalid _ hv]
    · intro hv hs
      rw [scheduleNext_int host now n k hk, toISODate_of_valid _ hv,
        shiftedTime_of_sameOffset host now k hs, day_add_days]
  · unfold clampLevel
    omega

/-- Witness for C3 (amended): on a host on UTC at 2026-11-06T00:00Z, level 9 is clamped to
the last rung and level -5 to the first, and a pass from stored level 3 and a fail from a
stored state without a numeric level raise no error -/
theorem scheduleNext_total_on_integers_witness :
    (∃ k, INTERVALS[clampLevel 9]? = some k ∧ validTime (shiftedTime utcHost sampleNow k) = true ∧
      SameOffset utcHost sampleNow k ∧
      scheduleNext utcHost sampleNow (.int 9) = .ok (isoDate (sampleNow / msPerDay + k))) ∧
    scheduleNext utcHost sampleNow (.int 9) = .ok "2026-11-20" ∧
    scheduleNext utcHost sampleNow (.int (-5)) = .ok "2026-11-06" ∧
    ((true = false ∨ ∃ m, (prevState storeLevelThree "ねこ|ねこ" sampleNow).level = .int m) ∧
      (prevState storeLevelThree "ねこ|ねこ" sampleNow).history ≠ .notIterable ∧
      DueDatesValid utcHost sampleNow ∧
      ∃ next, mark utcHost storeLevelThree "ねこ|ねこ" sampleNow true = .ok next) ∧
    ∃ next, mark utcHost storeNoLevel "ねこ|ねこ" sampleNow false = .ok next := by
  refine ⟨?_, by decide, by decide, ⟨Or.inr ⟨3, rfl⟩, by decide, by decide, ?_⟩, ?_⟩
  · obtain ⟨k, hk, -, -, h3⟩ := (scheduleNext_total_on_integers utcHost sampleNow 9).1
    have hk14 : k = 14 := by
      have h : INTERVALS[clampLevel 9]? = some 14 := by decide
      exact Option.some.inj (hk.symm.trans h)
    subst hk14
    exact ⟨14, hk, by decide, by decide, h3 (by decide) (by decide)⟩
  · exact (scheduleNext_total_on_integers utcHost sampleNow 9).2.2 storeLevelThree "ねこ|ねこ"
      true (Or.inr ⟨3, rfl⟩) (by decide) (by decide)
  · exact (scheduleNext_total_on_integers utcHost sampleNow 0).2.2 storeNoLevel "ねこ|ねこ"
      false (Or.inl rfl) (by decide) (by decide)

/-! ## Due selection -/

/-- C4: an entry is in `dueToday` exactly when it is in the word list and either has
no stored state or its stored due string is `<=` the reference day string in the
lexicographic order of code units; entries with no stored state are due on every
reference day; and the due list is a sublist of the word list, in the same order. -/
theorem dueToday_spec (data : List WordEntry) (srs : Store) (t : String) :
    (∀ v, v ∈ dueToday data srs t ↔
      v ∈ data ∧ (srs (uid v) = none ∨ ∃ st, srs (uid v) = some st ∧ jsStrLe st.due t = true)) ∧
    (∀ v, v ∈ data → srs (uid v) = none → v ∈ dueToday data srs t) ∧
    (dueToday data srs t).Sublist data ∧
    (∀ a b, jsStrLe a b = true ↔ ¬ List.Lex (fun x y : Nat => x < y) (utf16 b) (utf16 a)) := by
  have key : ∀ v, v ∈ dueToday data srs t ↔
      v ∈ data ∧ (srs (uid v) = none ∨ ∃ st, srs (uid v) = some st ∧ jsStrLe st.due t = true) := by
    intro v
    unfold dueToday
    rw [List.mem_filter]
    cases h : srs (uid v) <;> simp
  refine ⟨key, ?_, List.filter_sublist _, ?_⟩
  · intro v hv hnone
    exact (key v).2 ⟨hv, Or.inl hnone⟩
  · intro a b
    rw [← codeUnitsLt_iff_lex]
    simp [jsStrLe]

/-- Witness for C4: with nothing stored, a sample entry is due -/
theorem dueToday_spec_witness :
    (⟨"あかじ", some "赤字", some "名", "赤字;亏空", some "赤字を出す(出现赤字)", none⟩ : WordEntry)
        ∈ SAMPLE ∧
      emptyStore (uid ⟨"あかじ", some "赤字", some "名", "赤字;亏空", some "赤字を出す(出现赤字)", none⟩)
        = none ∧
      (⟨"あかじ", some "赤字", some "名", "赤字;亏空", some "赤字を出す(出现赤字)", none⟩ : WordEntry)
        ∈ dueToday SAMPLE emptyStore "2026-11-06" :=
  ⟨by decide, rfl, (dueToday_spec SAMPLE emptyStore "2026-11-06").2.1 _ (by decide) rfl⟩

/-! ## History -/

/-- C5: `mark` either throws the `RangeError` of `scheduleNext` (on a pass from a level
that is not a number, or when the due instant is not a valid date), or throws a
`TypeError` because the stored history is a value that cannot be spread, and in both
cases writes nothing; or it writes a store in which the history of the graded identity is
the previous history (its elements; none when no state or no history was stored) followed
by exactly the one record `{date: today, result: outcome}`, and in which every other
identity keeps its stored state. -/
theorem mark_history_append_only (host : Host) (srs : Store) (id : String) (now : Int)
    (pass : Bool) :
    (mark host srs id now pass = .error .rangeError ∧
      scheduleNext host now (nextLevel (prevState srs id now) pass) = .error .rangeError) ∨
    (mark host srs id now pass = .error .typeError ∧
      ∃ st, srs id = some st ∧ st.history = .notIterable) ∨
    (∃ next st items, mark host srs id now pass = .ok next ∧
      (srs id = none → items = []) ∧
      (∀ prev, srs id = some prev → prev.history.spread = .ok items) ∧
      next id = some st ∧
      st.history = .iterable (items ++
        [.record { date := today now, result := if pass then "pass" else "fail" }]) ∧
      ∀ j, j ≠ id → next j = srs j) := by
  cases hdue : scheduleNext host now (nextLevel (prevState srs id now) pass) with
  | error e =>
    have he := scheduleNext_error host now _ e hdue
    subst he
    exact Or.inl ⟨mark_of_schedule_error host srs id now pass _ hdue, rfl⟩
  | ok due =>
    cases hitems : (prevState srs id now).history.spread with
    | error e =>
      obtain ⟨hni, he⟩ := spread_error _ e hitems
      subst he
      refine Or.inr (Or.inl ⟨mark_of_spread_error host srs id now pass due _ hdue hitems, ?_⟩)
      cases hs : srs id with
      | none => simp [prevState, hs] at hni
      | some st => exact ⟨st, rfl, by simpa [prevState, hs] using hni⟩
    | ok items =>
      refine Or.inr (Or.inr ⟨_, _, items,
        mark_of_ok host srs id now pass due items hdue hitems, ?_, ?_, if_pos rfl, rfl,
        fun j hj => if_neg hj⟩)
      · intro hs
        have : (prevState srs id now).history.spread = .ok [] := by simp [prevState, hs]; rfl
        exact (Except.ok.inj (hitems.symm.trans this))
      · intro prev hs
        simpa [prevState, hs] using hitems

/-- Witness for C5: a fail recorded on top of one earlier record leaves that record in
front, and the state of another identity is what it was -/
theorem mark_history_append_only_witness :
    ∃ next st, mark utcHost storeLevelThree "ねこ|ねこ" sampleNow false = .ok next ∧
      next "ねこ|ねこ" = some st ∧
      st.history = .iterable [.record { date := "2026-10-25", result := "pass" },
        .record { date := "2026-11-06", result := "fail" }] ∧
      next "いぬ|いぬ" = storeLevelThree "いぬ|いぬ" := by
  rcases mark_history_append_only utcHost storeLevelThree "ねこ|ねこ" sampleNow false with
    h | h | h
  · exact absurd h.2 (by decide)
  · obtain ⟨st, hst, hh⟩ := h.2
    have h0 : storeLevelThree "ねこ|ねこ" = some _ := rfl
    rw [h0] at hst
    cases hst
    cases hh
  · obtain ⟨next, st, items, h1, -, h3, h4, h5, h6⟩ := h
    have hi := h3 _ rfl
    have hitems : items = [.record { date := "2026-10-25", result := "pass" }] :=
      (Except.ok.inj hi).symm
    subst hitems
    exact ⟨next, st, h1, h4, h5, h6 "いぬ|いぬ" (by decide)⟩

/-! ## Shuffle lemmas -/

section ShuffleLemmas

variable {α β : Type}

theorem length_swap (a : List α) (i j : Nat) : (swap a i j).length = a.length := by
  unfold swap
  split <;> simp

theorem swap_map (f : α → β) (a : List α) (i j : Nat) :
    swap (a.map f) i j = (swap a i j).map f := by
  unfold swap
  cases hi : a[i]? <;> cases hj : a[j]? <;> simp [hi, hj, List.map_set]

theorem shuffleLoop_map (draw : Draw) (f : α → β) (i : Nat) (a : List α) :
    shuffleLoop draw i (a.map f) = (shuffleLoop draw i a).map f := by
  induction i generalizing a with
  | zero => rfl
  | succ i ih => simp only [shuffleLoop, swap_map, ih]

theorem shuffle_map (draw : Draw) (f : α → β) (a : List α) :
    shuffle draw (a.map f) = (shuffle draw a).map f := by
  simp only [shuffle, List.length_map, shuffleLoop_map]

theorem length_shuffleLoop (draw : Draw) (i : Nat) (a : List α) :
    (shuffleLoop draw i a).length = a.length := by
  induction i generalizing a with
  | zero => rfl
  | succ i ih => simp only [shuffleLoop, ih, length_swap]

theorem length_shuffle (draw : Draw) (a : List α) : (shuffle draw a).length = a.length :=
  length_shuffleLoop draw _ a

theorem swap_perm_of_decEq [DecidableEq α] (l : List α) (i j : Nat) : (swap l i j).Perm l := by
  unfold swap
  cases hi : l[i]? with
  | none => exact List.Perm.refl _
  | some x =>
    cases hj : l[j]? with
    | none => exact List.Perm.refl _
    | some y =>
      obtain ⟨hil, hx⟩ := List.getElem?_eq_some.1 hi
      obtain ⟨hjl, hy⟩ := List.getElem?_eq_some.1 hj
      show ((l.set i y).set j x).Perm l
      rw [List.perm_iff_count]
      intro a
      by_cases hij : i = j
      · subst hij
        have hxy : x = y := hx.symm.trans hy
        subst hxy
        subst hx
        rw [List.set_set, List.count_set _ a l i hil]
        have h1 := List.boole_getElem_le_count a l i hil
        split_ifs at h1 ⊢ <;> omega
      · have hj' : j < (l.set i y).length := by simpa using hjl
        rw [List.count_set x a (l.set i y) j hj', List.count_set y a l i hil,
          List.getElem_set_ne hij, hx, hy]
        have h1 := List.boole_getElem_le_count a l i hil
        rw [hx] at h1
        split_ifs at h1 ⊢ <;> omega

theorem swap_perm (l : List α) (i j : Nat) : (swap l i j).Perm l := by
  have h := (swap_perm_of_decEq (List.finRange l.length) i j).map l.get
  rw [← swap_map, List.finRange_map_get] at h
  exact h

theorem shuffleLoop_perm (draw : Draw) (i : Nat) (a : List α) : (shuffleLoop draw i a).Perm a := by
  induction i generalizing a with
  | zero => exact List.Perm.refl _
  | succ i ih => exact (ih _).trans (swap_perm a _ _)

theorem shuffle_perm (draw : Draw) (a : List α) : (shuffle draw a).Perm a :=
  shuffleLoop_perm draw _ a


theorem swap_getElem?_ne (a : List α) (i j k : Nat) (hi : k ≠ i) (hj : k ≠ j) :
    (swap a i j)[k]? = a[k]? := by
  unfold swap
  split
  · rw [List.getElem?_set_ne (Ne.symm hj), List.getElem?_set_ne (Ne.symm hi)]
  · rfl

theorem swap_getElem?_left (a : List α) (i j : Nat) (hi : i < a.length) (hj : j < a.length) :
    (swap a i j)[i]? = a[j]? := by
  unfold swap
  rw [List.getElem?_eq_getElem hi, List.getElem?_eq_getElem hj]
  show ((a.set i a[j]).set j a[i])[i]? = some a[j]
  by_cases hij : j = i
  · subst hij
    rw [List.getElem?_set_self (by simpa using hj)]
  · rw [List.getElem?_set_ne hij, List.getElem?_set_self hi]

theorem shuffleLoop_getElem?_of_gt (draw : Draw) (i : Nat) (a : List α) (k : Nat) (hk : i < k) :
    (shuffleLoop draw i a)[k]? = a[k]? := by
  induction i generalizing a with
  | zero => rfl
  | succ i ih =>
    have hj := (draw (i + 1)).isLt
    rw [shuffleLoop, ih _ (by omega), swap_getElem?_ne _ _ _ _ (by omega) (by omega)]

theorem shuffleLoop_congr (d d' : Draw) (i : Nat) (a : List α)
    (h : ∀ k, 1 ≤ k → k ≤ i → d k = d' k) : shuffleLoop d i a = shuffleLoop d' i a := by
  induction i generalizing a with
  | zero => rfl
  | succ i ih =>
    rw [shuffleLoop, shuffleLoop, h (i + 1) (by omega) le_rfl]
    exact ih _ (fun k h1 h2 => h k h1 (by omega))

theorem shuffleLoop_inj (d d' : Draw) (i : Nat) (a : List α) (ha : a.Nodup) (hi : i < a.length)
    (h : shuffleLoop d i a = shuffleLoop d' i a) : ∀ k, 1 ≤ k → k ≤ i → d k = d' k := by
  induction i generalizing a with
  | zero => intro k h1 h2; omega
  | succ i ih =>
    have hj := (d (i + 1)).isLt
    have hj' := (d' (i + 1)).isLt
    have hget := congrArg (fun l => l[i + 1]?) h
    simp only [shuffleLoop] at hget
    rw [shuffleLoop_getElem?_of_gt _ _ _ _ (Nat.lt_succ_self i),
      shuffleLoop_getElem?_of_gt _ _ _ _ (Nat.lt_succ_self i),
      swap_getElem?_left _ _ _ hi (by omega), swap_getElem?_left _ _ _ hi (by omega),
      List.getElem?_eq_getElem (by omega), List.getElem?_eq_getElem (by omega)] at hget
    have hval : (d (i + 1)).val = (d' (i + 1)).val :=
      (List.Nodup.getElem_inj_iff ha).1 (Option.some.inj hget)
    have hd : d (i + 1) = d' (i + 1) := Fin.ext hval
    simp only [shuffleLoop, hd] at h
    have hrest := ih (swap a (i + 1) (d' (i + 1)).val) ((swap_perm a _ _).nodup_iff.2 ha)
      (by rw [length_swap]; omega) h
    intro k h1 h2
    rcases Nat.lt_or_ge k (i + 1) with hlt | hge
    · exact hrest k h1 (by omega)
    · have : k = i + 1 := by omega
      subst this
      exact hd

theorem shuffleFrameLoop_eq (draw : Draw) (i : Nat) (fr : ShuffleFrame α) :
    shuffleFrameLoop draw i fr = { arr := fr.arr, a := shuffleLoop draw i fr.a } := by
  induction i generalizing fr with
  | zero => rfl
  | succ i ih => rw [shuffleFrameLoop, ih, shuffleLoop]

theorem shuffleFrame_eq (draw : Draw) (l : List α) :
    shuffleFrame draw l = { arr := l, a := shuffle draw l } :=
  shuffleFrameLoop_eq draw _ _

theorem shuffle_extend_injective (l : List α) (hl : l.Nodup) :
    Function.Injective (fun d : Draws l.length => shuffle d.extend l) := by
  intro d d' h
  simp only [shuffle] at h
  funext ⟨k, hk⟩
  rcases Nat.eq_zero_or_pos k with h0 | hpos
  · subst h0
    have h1 : (d ⟨0, hk⟩).val < 0 + 1 := (d ⟨0, hk⟩).isLt
    have h2 : (d' ⟨0, hk⟩).val < 0 + 1 := (d' ⟨0, hk⟩).isLt
    exact Fin.ext (by omega)
  · have hlen : l.length - 1 < l.length := by omega
    have := shuffleLoop_inj d.extend d'.extend _ l hl hlen h k hpos (by omega)
    simpa [Draws.extend, hk] using this

theorem card_draws (n : Nat) : Fintype.card (Draws n) = n.factorial := by
  rw [Fintype.card_pi]
  simp only [Fintype.card_fin]
  rw [Fin.prod_univ_eq_prod_range (fun i => i + 1) n, Finset.prod_range_add_one_eq_factorial]

theorem shuffle_extend_surjective [DecidableEq α] (l : List α) (hl : l.Nodup) (l' : List α)
    (hp : l'.Perm l) : ∃ d : Draws l.length, shuffle d.extend l = l' := by
  have hsub : Finset.univ.image (fun d : Draws l.length => shuffle d.extend l) ⊆
      l.permutations.toFinset := by
    intro x hx
    obtain ⟨d, -, rfl⟩ := Finset.mem_image.1 hx
    exact List.mem_toFinset.2 (List.mem_permutations.2 (shuffle_perm _ l))
  have hcard : l.permutations.toFinset.card ≤
      (Finset.univ.image (fun d : Draws l.length => shuffle d.extend l)).card := by
    rw [Finset.card_image_of_injective _ (shuffle_extend_injective l hl), Finset.card_univ,
      card_draws, List.toFinset_card_of_nodup (List.nodup_permutations l hl),
      List.length_permutations]
  have heq := Finset.eq_of_subset_of_card_le hsub hcard
  have hmem : l' ∈ l.permutations.toFinset := List.mem_toFinset.2 (List.mem_permutations.2 hp)
  rw [← heq] at hmem
  obtain ⟨d, -, hd⟩ := Finset.mem_image.1 hmem
  exact ⟨d, hd⟩

end ShuffleLemmas

/-! ## Session assembly -/

/-- C6: for every due pool, fallback list, requested count `n` and outcome of the draws,
the session has exactly `min(n, |source|)` items, where `source` is the due pool if it is
non-empty and the fallback list otherwise, and the session is `source` read at a list of
pairwise distinct positions (nothing padded, nothing from outside, no position twice). -/
theorem session_spec (draw : Draw) (pool all : List WordEntry) (n : Nat)
    (source : List WordEntry) (hsrc : source = if pool = [] then all else pool) :
    (session draw pool all n).length = min n source.length ∧
    ∃ idxs : List (Fin source.length), idxs.Nodup ∧
      session draw pool all n = idxs.map source.get := by
  have hbase : (if pool.length ≠ 0 then pool else all) = source := by
    subst hsrc
    cases pool <;> simp
  unfold session
  simp only [hbase]
  refine ⟨by rw [List.length_take, length_shuffle], ?_⟩
  refine ⟨(shuffle draw (List.finRange source.length)).take n, ?_, ?_⟩
  · exact ((shuffle_perm draw _).nodup_iff.2 (List.nodup_finRange _)).sublist (List.take_sublist _ _)
  · rw [List.map_take, ← shuffle_map, List.finRange_map_get]

/-- Witness for C6: with nothing due, 2 of the 5 sample entries are drawn from the sample -/
theorem session_spec_witness :
    SAMPLE = (if ([] : List WordEntry) = [] then SAMPLE else []) ∧
    (session drawZero [] SAMPLE 2).length = min 2 SAMPLE.length ∧
    ∃ idxs : List (Fin SAMPLE.length), idxs.Nodup ∧
      session drawZero [] SAMPLE 2 = idxs.map SAMPLE.get :=
  ⟨rfl, session_spec drawZero [] SAMPLE 2 SAMPLE rfl⟩

/-! ## Shuffle -/

/-- C7: for a list `l` of `n` pairwise distinct elements, every choice sequence makes
`shuffle` return a permutation of `l`; every permutation of `l` is the output of exactly
one choice sequence; there are `n!` choice sequences; so under independent uniform draws
each permutation has probability `1/n!`; and the outcome of any draws is the outcome of
the choice sequence they restrict to. The caller's array is the same when `shuffle`
returns, which returns its local copy. -/
theorem shuffle_uniform_permutation {α : Type} [DecidableEq α] (l : List α) (hl : l.Nodup) :
    (∀ d : Draws l.length, (shuffle d.extend l).Perm l) ∧
    (∀ l' : List α, l'.Perm l → ∃! d : Draws l.length, shuffle d.extend l = l') ∧
    Fintype.card (Draws l.length) = l.length.factorial ∧
    (∀ l' : List α, l'.Perm l →
      (((Finset.univ.filter (fun d : Draws l.length => shuffle d.extend l = l')).card : ℚ) /
        (Fintype.card (Draws l.length) : ℚ)) = 1 / (l.length.factorial : ℚ)) ∧
    (∀ draw : Draw, ∃ d : Draws l.length, shuffle draw l = shuffle d.extend l) ∧
    (∀ draw : Draw, (shuffleFrame draw l).arr = l ∧ (shuffleFrame draw l).a = shuffle draw l) := by
  have huniq : ∀ l' : List α, l'.Perm l → ∃! d : Draws l.length, shuffle d.extend l = l' := by
    intro l' hp
    obtain ⟨d, hd⟩ := shuffle_extend_surjective l hl l' hp
    exact ⟨d, hd, fun d' hd' => shuffle_extend_injective l hl (hd'.trans hd.symm)⟩
  refine ⟨fun d => shuffle_perm _ l, huniq, card_draws _, ?_, ?_,
    fun draw => by rw [shuffleFrame_eq]; exact ⟨rfl, rfl⟩⟩
  · intro l' hp
    obtain ⟨d, hd, hu⟩ := huniq l' hp
    have hone : (Finset.univ.filter (fun d : Draws l.length => shuffle d.extend l = l')).card = 1 := by
      rw [Finset.card_eq_one]
      refine ⟨d, ?_⟩
      ext x
      simp only [Finset.mem_filter, Finset.mem_univ, true_and, Finset.mem_singleton]
      exact ⟨fun hx => hu x hx, fun hx => hx ▸ hd⟩
    rw [hone, card_draws]
    simp
  · intro draw
    refine ⟨fun i => draw i.val, ?_⟩
    simp only [shuffle]
    apply shuffleLoop_congr
    intro k _ hk
    have : k < l.length := by
      rcases Nat.eq_zero_or_pos l.length with h0 | hpos
      · omega
      · omega
    simp [Draws.extend, this]


/-- Witness for C7: exactly one choice sequence turns `[1, 2, 3]` into `[3, 1, 2]` -/
theorem shuffle_uniform_permutation_witness :
    ([1, 2, 3] : List Nat).Nodup ∧
    ∃! d : Draws ([1, 2, 3] : List Nat).length, shuffle d.extend [1, 2, 3] = [3, 1, 2] :=
  ⟨by decide, (shuffle_uniform_permutation [1, 2, 3] (by decide)).2.1 [3, 1, 2] (by decide)⟩

/-! ## Vocabulary import -/

/-- Aliases are resolved and trimmed, and a record whose word trims to nothing is dropped -/
theorem onLoadFile_aliases :
    onLoadFile (some [recordWithAliases, recordBlankWord]) =
      .ok [{ word := "いぬ", translation := "狗" }] := by
  decide

/-- C8 fails on the code: the record `{"word": "ねこ"}`, whose translation resolves under
no alias, is not dropped; it is loaded with the translation `"undefined"`, and the import
succeeds although no record resolves both required fields. -/
theorem onLoadFile_keeps_unresolved_translation :
    onLoadFile (some [recordWithoutTranslation]) =
      .ok [{ word := "ねこ", translation := "undefined" }] := by
  decide

/-- The import succeeds exactly with the surviving records, in their order, when there is one -/
theorem onLoadFile_ok_iff (arr : List RawRecord) (ws : List WordEntry) :
    onLoadFile (some arr) = .ok ws ↔
      ws = (arr.map normalize).filter (fun v => v.word != "" && v.translation != "") ∧
      ws ≠ [] := by
  unfold onLoadFile
  simp only [List.length_eq_zero]
  split_ifs with h
  · constructor
    · intro hc; cases hc
    · rintro ⟨rfl, hne⟩; exact absurd h hne
  · constructor
    · intro hc
      have := Except.ok.inj hc
      subst this
      exact ⟨rfl, h⟩
    · rintro ⟨rfl, -⟩; rfl

/-! ## Identity -/

theorem uid_data (v : WordEntry) :
    (uid v).data = (kanjiOrWord v).data ++ '|' :: v.word.data := by
  simp [uid, String.data_append]

/-- C9, as stated, fails: a kana-only entry and an entry whose kanji repeats the word
have the same word and different kanji, and the same identity. -/
theorem uid_collision_counterexample :
    entryKanaOnly.word = entryKanjiIsWord.word ∧ entryKanaOnly.kanji ≠ entryKanjiIsWord.kanji ∧
    entryKanaOnly.word ≠ "" ∧ uid entryKanaOnly = uid entryKanjiIsWord := by
  decide

/-- C9 (amended): two entries with the same word whose values of `kanji || word` differ
(as they do when both have a non-empty kanji and the kanji differ, or when one has no
kanji and the other a non-empty kanji different from the word) have different identities,
and so do two entries with the same kanji and different words. -/
theorem uid_distinct (v w : WordEntry) :
    (v.word = w.word → kanjiOrWord v ≠ kanjiOrWord w → uid v ≠ uid w) ∧
    (v.kanji = w.kanji → v.word ≠ w.word → uid v ≠ uid w) ∧
    (v.word = w.word → ∀ k k', v.kanji = some k → w.kanji = some k' → k ≠ "" → k' ≠ "" →
      k ≠ k' → uid v ≠ uid w) ∧
    (v.word = w.word → ∀ k, v.kanji = none → w.kanji = some k → k ≠ "" → k ≠ w.word →
      uid v ≠ uid w) := by
  have h1 : v.word = w.word → kanjiOrWord v ≠ kanjiOrWord w → uid v ≠ uid w := by
    intro hw hk he
    have hd := congrArg String.data he
    rw [uid_data, uid_data, hw] at hd
    exact hk (String.ext (List.append_cancel_right hd))
  refine ⟨h1, ?_, ?_, ?_⟩
  · intro hk hw he
    have hd := congrArg String.data he
    rw [uid_data, uid_data] at hd
    have hkey : kanjiOrWord v = kanjiOrWord w ∨
        (kanjiOrWord v = v.word ∧ kanjiOrWord w = w.word) := by
      unfold kanjiOrWord
      rw [hk]
      cases w.kanji with
      | none => exact Or.inr ⟨rfl, rfl⟩
      | some k =>
        by_cases hk0 : k = ""
        · simp [hk0]
        · simp [hk0]
    rcases hkey with hkey | ⟨hv, hw'⟩
    · rw [hkey] at hd
      have := List.append_cancel_left hd
      exact hw (String.ext (List.cons.inj this).2)
    · rw [hv, hw'] at hd
      have hlen := congrArg List.length hd
      simp only [List.length_append, List.length_cons] at hlen
      have := (List.append_inj hd (by omega)).1
      exact hw (String.ext this)
  · intro hw k k' hk hk' hne hne' hkk
    apply h1 hw
    simp [kanjiOrWord, hk, hk', hne, hne', hkk]
  · intro hw k hk hk' hne hkw
    apply h1 hw
    simp only [kanjiOrWord, hk, hk', hne, if_false, hw]
    exact fun h => hkw h.symm

/-- Witness for C9 (amended): the kana-only entry and the entry with kanji `猫` differ -/
theorem uid_distinct_witness :
    entryKanaOnly.word = entryWithKanji.word ∧
    kanjiOrWord entryKanaOnly ≠ kanjiOrWord entryWithKanji ∧
    uid entryKanaOnly ≠ uid entryWithKanji :=
  ⟨rfl, by decide, (uid_distinct entryKanaOnly entryWithKanji).1 rfl (by decide)⟩

/-! ## Progress summary -/

theorem clamp_expr (n : Int) :
    mathMax (.int 0) (mathMin (.int 4) (.int n)) = .int (clampLevel n) := by
  simp only [mathMax, mathMin, clampLevel]
  congr 1
  omega

theorem clampLevel_lt_five (n : Int) : clampLevel n < 5 := by
  unfold clampLevel
  omega

theorem bump_int (levels : List Nat) (c : Nat) (hc : c < levels.length) :
    (bump levels (.int c)).length = levels.length ∧
    ∀ i, (bump levels (.int c)).getD i 0 = levels.getD i 0 + (if c = i then 1 else 0) := by
  have hb : bump levels (.int c) = levels.set c (levels.getD c 0 + 1) := by
    simp [bump, hc]
  rw [hb]
  refine ⟨List.length_set _ _ _, fun i => ?_⟩
  simp only [List.getD_eq_getElem?_getD, List.getElem?_set]
  by_cases hci : c = i
  · subst hci
    simp [hc]
  · simp [hci]

theorem statsStep_levels (srs : Store) (t : String) (acc : List Nat × Nat) (v : WordEntry)
    (hlen : acc.1.length = 5) :
    (statsStep srs t acc v).1.length = 5 ∧
    ∀ i, (statsStep srs t acc v).1.getD i 0 =
      acc.1.getD i 0 + (if bucket srs v = some i then 1 else 0) := by
  cases hst : srs (uid v) with
  | none =>
    have h := bump_int acc.1 0 (by omega)
    simp only [Nat.cast_zero] at h
    simp only [statsStep, bucket, hst]
    exact ⟨h.1.trans hlen, fun i => by simpa using h.2 i⟩
  | some st =>
    obtain ⟨lvl, due, hist⟩ := st
    cases lvl with
    | nan =>
      simp only [statsStep, bucket, hst, mathMin, mathMax, bump]
      exact ⟨hlen, fun i => by simp⟩
    | int n =>
      have h := bump_int acc.1 (clampLevel n) (by have := clampLevel_lt_five n; omega)
      simp only [statsStep, bucket, hst, clamp_expr]
      exact ⟨h.1.trans hlen, fun i => by simpa using h.2 i⟩

theorem foldl_statsStep_levels (srs : Store) (t : String) (data : List WordEntry)
    (acc : List Nat × Nat) (hlen : acc.1.length = 5) :
    (data.foldl (statsStep srs t) acc).1.length = 5 ∧
    ∀ i, (data.foldl (statsStep srs t) acc).1.getD i 0 =
      acc.1.getD i 0 + countBucket data srs i := by
  induction data generalizing acc with
  | nil => exact ⟨hlen, fun i => by simp [countBucket]⟩
  | cons v vs ih =>
    obtain ⟨h1, h2⟩ := statsStep_levels srs t acc v hlen
    obtain ⟨h3, h4⟩ := ih (statsStep srs t acc v) h1
    refine ⟨h3, fun i => ?_⟩
    rw [List.foldl_cons, h4 i, h2 i]
    unfold countBucket
    rw [List.filter_cons]
    by_cases hb : bucket srs v = some i
    · simp [hb]; omega
    · simp [hb]

theorem roundHalfEven_spec (a b : Nat) (hb : 0 < b) :
    2 * (roundHalfEven a b * b) ≤ 2 * a + b ∧ 2 * a ≤ 2 * (roundHalfEven a b * b) + b := by
  have h1 := Nat.div_add_mod a b
  have h2 := Nat.mod_lt a hb
  have h3 : (a / b + 1) * b = b * (a / b) + b := by ring
  have h4 : a / b * b = b * (a / b) := by ring
  unfold roundHalfEven
  split_ifs <;> simp only [h3, h4] <;> omega

theorem leastFrom_spec (p : Nat → Bool) (fuel start s' : Nat) (h1 : start ≤ s')
    (h2 : s' < start + fuel) (h3 : p s' = true) :
    p (leastFrom p fuel start) = true ∧ start ≤ leastFrom p fuel start ∧
    ∀ j, start ≤ j → j < leastFrom p fuel start → p j = false := by
  induction fuel generalizing start with
  | zero => omega
  | succ fuel ih =>
    unfold leastFrom
    by_cases hp : p start = true
    · rw [if_pos hp]
      exact ⟨hp, le_rfl, fun j hj hj' => by omega⟩
    · rw [if_neg hp]
      have hne : start ≠ s' := fun h => hp (h ▸ h3)
      obtain ⟨a, b, c⟩ := ih (start + 1) (by omega) (by omega)
      refine ⟨a, by omega, fun j hj hj' => ?_⟩
      rcases Nat.eq_or_lt_of_le hj with h | h
      · subst h
        simpa using hp
      · exact c j h hj'

theorem quotientDouble_spec (learned total : Nat) (hl : 0 < learned) (hlt : learned ≤ total) :
    2 ^ 52 ≤ 2 ^ (quotientDouble learned total).2 ∧
    2 * ((quotientDouble learned total).1 * total) ≤
      2 * (learned * 2 ^ (quotientDouble learned total).2) + total ∧
    2 * (learned * 2 ^ (quotientDouble learned total).2) ≤
      2 * ((quotientDouble learned total).1 * total) + total := by
  have ht : 0 < total := by omega
  have hex : total * 2 ^ 52 ≤ learned * 2 ^ (total + 52) := by
    have h1 : total < 2 ^ total := Nat.lt_two_pow total
    calc total * 2 ^ 52 ≤ 2 ^ total * 2 ^ 52 := Nat.mul_le_mul_right _ h1.le
      _ = 1 * 2 ^ (total + 52) := by rw [Nat.pow_add, Nat.one_mul]
      _ ≤ learned * 2 ^ (total + 52) := Nat.mul_le_mul_right _ hl
  obtain ⟨hs, -, -⟩ := leastFrom_spec (fun s => decide (total * 2 ^ 52 ≤ learned * 2 ^ s))
    (total + 53) 0 (total + 52) (Nat.zero_le _) (by omega) (by simpa using hex)
  have hs' : total * 2 ^ 52 ≤ learned *
      2 ^ (leastFrom (fun s => decide (total * 2 ^ 52 ≤ learned * 2 ^ s)) (total + 53) 0) := by
    simpa using hs
  refine ⟨?_, roundHalfEven_spec _ _ ht⟩
  show 2 ^ 52 ≤ 2 ^ (leastFrom _ _ _)
  have h5 : total * 2 ^ 52 ≤ total *
      2 ^ (leastFrom (fun s => decide (total * 2 ^ 52 ≤ learned * 2 ^ s)) (total + 53) 0) :=
    hs'.trans (Nat.mul_le_mul_right _ hlt)
  exact Nat.le_of_mul_le_mul_left h5 ht

theorem timesHundredDouble_spec (m : Nat) :
    timesHundredDouble m * 2 ^ 53 ≤ 100 * m * 2 ^ 53 + 100 * m ∧
    100 * m * 2 ^ 53 ≤ timesHundredDouble m * 2 ^ 53 + 100 * m := by
  have hex : 100 * m < 2 ^ (53 + 100 * m) :=
    (Nat.lt_two_pow _).trans_le (Nat.pow_le_pow_right (by decide) (by omega))
  obtain ⟨hr, -, hmin⟩ := leastFrom_spec (fun r => decide (100 * m < 2 ^ (53 + r)))
    (100 * m + 1) 0 (100 * m) (Nat.zero_le _) (by omega) (by simpa using hex)
  unfold timesHundredDouble
  generalize leastFrom (fun r => decide (100 * m < 2 ^ (53 + r))) (100 * m + 1) 0 = r at hr hmin
  have hpos : 0 < 2 ^ r := Nat.two_pow_pos r
  obtain ⟨h1, h2⟩ := roundHalfEven_spec (100 * m) (2 ^ r) hpos
  show roundHalfEven (100 * m) (2 ^ r) * 2 ^ r * 2 ^ 53 ≤ _ ∧
    _ ≤ roundHalfEven (100 * m) (2 ^ r) * 2 ^ r * 2 ^ 53 + _
  generalize roundHalfEven (100 * m) (2 ^ r) * 2 ^ r = x at h1 h2
  rcases Nat.eq_zero_or_pos r with h0 | hr0
  · subst h0
    simp only [Nat.pow_zero] at h1 h2
    omega
  · have hprev := hmin (r - 1) (Nat.zero_le _) (by omega)
    have hge : 2 ^ (53 + (r - 1)) ≤ 100 * m := by simpa using hprev
    have hsplit : 2 ^ (53 + (r - 1)) = 2 ^ r * 2 ^ 52 := by
      rw [← Nat.pow_add]
      congr 1
      omega
    rw [hsplit] at hge
    generalize 2 ^ r = q at h1 h2 hge
    norm_num at hge ⊢
    omega


/-- The rate computed in double arithmetic is within one half of `100 * learned / total` -/
theorem roundRate_nearest (learned total : Nat) (ht : 0 < total) (hlt : learned ≤ total)
    (hbound : total < 2 ^ 32) :
    2 * (roundRate learned total * total) ≤ 200 * learned + total ∧
    200 * learned ≤ 2 * (roundRate learned total * total) + total := by
  rcases Nat.eq_zero_or_pos learned with h0 | hl
  · subst h0
    simp [roundRate]
  have hr : roundRate learned total =
      (2 * timesHundredDouble (quotientDouble learned total).1 +
        2 ^ (quotientDouble learned total).2) / 2 ^ ((quotientDouble learned total).2 + 1) := by
    simp [roundRate, Nat.pos_iff_ne_zero.1 ht, Nat.pos_iff_ne_zero.1 hl]
  obtain ⟨hP, ha1, ha2⟩ := quotientDouble_spec learned total hl hlt
  obtain ⟨hb1, hb2⟩ := timesHundredDouble_spec (quotientDouble learned total).1
  rw [hr]
  generalize (quotientDouble learned total).1 = m at *
  generalize timesHundredDouble m = x at *
  have hpow : 2 ^ ((quotientDouble learned total).2 + 1) =
      2 * 2 ^ (quotientDouble learned total).2 := by
    rw [Nat.pow_succ, Nat.mul_comm]
  rw [hpow]
  generalize 2 ^ (quotientDouble learned total).2 = p at *
  have hp0 : 0 < 2 * p := by omega
  have hc1 := Nat.div_mul_le_self (2 * x + p) (2 * p)
  have hc2 := Nat.lt_succ_iff.2 (Nat.le_refl ((2 * x + p) / (2 * p)))
  have hc3 : 2 * x + p < ((2 * x + p) / (2 * p) + 1) * (2 * p) := by
    have := Nat.lt_div_mul_add hp0 (a := 2 * x + p)
    rw [Nat.add_mul, Nat.one_mul]
    exact this
  generalize (2 * x + p) / (2 * p) = rate at *
  -- products of the unknowns, as new unknowns
  have e1 : rate * (2 * p) * total = 2 * (rate * total * p) := by ring
  have e2 : (rate + 1) * (2 * p) * total = 2 * (rate * total * p) + 2 * (total * p) := by ring
  have e3 : (2 * x + p) * total = 2 * (x * total) + total * p := by ring
  have k1 := Nat.mul_le_mul_right total hc1
  have k2 := Nat.mul_le_mul_right total (Nat.succ_le_of_lt hc3)
  rw [e1, e3] at k1
  rw [e2, Nat.succ_eq_add_one, Nat.add_mul, e3, Nat.one_mul] at k2
  have k3 := Nat.mul_le_mul_right total hb1
  have k4 := Nat.mul_le_mul_right total hb2
  have e4 : x * 2 ^ 53 * total = 2 ^ 53 * (x * total) := by ring
  have e5 : (100 * m * 2 ^ 53 + 100 * m) * total = (100 * 2 ^ 53 + 100) * (m * total) := by ring
  have e6 : 100 * m * 2 ^ 53 * total = 100 * 2 ^ 53 * (m * total) := by ring
  have e7 : (x * 2 ^ 53 + 100 * m) * total = 2 ^ 53 * (x * total) + 100 * (m * total) := by ring
  rw [e4, e5] at k3
  rw [e6, e7] at k4
  have k5 : learned * p ≤ 2 ^ 32 * p := Nat.mul_le_mul_right p (by omega)
  have k6 : total * p ≤ 2 ^ 32 * p := Nat.mul_le_mul_right p (by omega)
  constructor
  · by_contra hneg
    have hneg' : 200 * learned + total + 1 ≤ 2 * (rate * total) := by omega
    have k7 := Nat.mul_le_mul_right p hneg'
    have e8 : (200 * learned + total + 1) * p = 200 * (learned * p) + total * p + p := by ring
    have e9 : 2 * (rate * total) * p = 2 * (rate * total * p) := by ring
    rw [e8, e9] at k7
    generalize rate * total * p = A at *
    generalize learned * p = B at *
    generalize total * p = C at *
    generalize x * total = D at *
    generalize m * total = E at *
    norm_num at *
    omega
  · by_contra hneg
    have hneg' : 2 * (rate * total) + total + 1 ≤ 200 * learned := by omega
    have k7 := Nat.mul_le_mul_right p hneg'
    have e8 : (2 * (rate * total) + total + 1) * p = 2 * (rate * total * p) + total * p + p := by
      ring
    have e9 : 200 * learned * p = 200 * (learned * p) := by ring
    rw [e8, e9] at k7
    generalize rate * total * p = A at *
    generalize learned * p = B at *
    generalize total * p = C at *
    generalize x * total = D at *
    generalize m * total = E at *
    norm_num at *
    omega

/-- C10, as stated, fails: with one entry whose stored level is 7, `levels[4]` is 1 while
no entry has a stored level equal to 4. -/
theorem stats_levels_counterexample :
    (stats [entryKanaOnly] storeLevelSeven "2026-11-06").levels[4]? = some 1 ∧
    countStoredLevel [entryKanaOnly] storeLevelSeven 4 = 0 := by
  decide

theorem countBucket_cons (srs : Store) (v : WordEntry) (vs : List WordEntry) (i : Nat) :
    countBucket (v :: vs) srs i =
      countBucket vs srs i + (if bucket srs v = some i then 1 else 0) := by
  unfold countBucket
  rw [List.filter_cons]
  by_cases hb : bucket srs v = some i
  · simp [hb]
  · simp [hb]

/-- The counters 1 to 4 together hold at most as many entries as the word list has -/
theorem countBucket_learned_le (data : List WordEntry) (srs : Store) :
    countBucket data srs 1 + countBucket data srs 2 + countBucket data srs 3 +
      countBucket data srs 4 ≤ data.length := by
  induction data with
  | nil => simp [countBucket]
  | cons v vs ih =>
    simp only [countBucket_cons, List.length_cons]
    cases hb : bucket srs v with
    | none => simp; omega
    | some j =>
      simp only [Option.some.injEq]
      split_ifs <;> omega

/-- C10 (amended): for every word list and store whose stored levels are integers or
missing, `levels` has five counters and `levels[i]` is the number of entries that have no
stored state (for `i = 0`) or whose stored level is an integer that, clamped into
`[0, 4]`, equals `i` (an entry whose state has no level is in no counter); when every
stored level is an integer in `0..4` this is the number of entries whose stored level
equals `i`; `learned = levels[1]+levels[2]+levels[3]+levels[4]`; and `rate` is 0 when
there is no entry and otherwise, the list being an array and so shorter than `2 ^ 32`, an
integer within one half of `learned/total*100`, as double arithmetic gives it: 1 of 3
gives 33, 2 of 3 gives 67, 3 of 5 gives 60, and 23 of 40 gives 57. -/
theorem stats_spec (data : List WordEntry) (srs : Store) (t : String) :
    (stats data srs t).levels.length = 5 ∧
    (∀ i, i < 5 → (stats data srs t).levels[i]? = some (countBucket data srs i)) ∧
    ((∀ v ∈ data, ∀ st, srs (uid v) = some st → ∃ n : Nat, n ≤ 4 ∧ st.level = .int n) →
      ∀ i, i < 5 → (stats data srs t).levels[i]? = some (countStoredLevel data srs i)) ∧
    (stats data srs t).learned =
      (stats data srs t).levels.getD 1 0 + (stats data srs t).levels.getD 2 0 +
      (stats data srs t).levels.getD 3 0 + (stats data srs t).levels.getD 4 0 ∧
    (stats data srs t).total = data.length ∧
    (data.length = 0 → (stats data srs t).rate = 0) ∧
    (0 < data.length → data.length < 2 ^ 32 →
      2 * ((stats data srs t).rate * data.length) ≤
        200 * (stats data srs t).learned + data.length ∧
      200 * (stats data srs t).learned ≤
        2 * ((stats data srs t).rate * data.length) + data.length) ∧
    (roundRate 1 3 = 33 ∧ roundRate 2 3 = 67 ∧ roundRate 3 5 = 60 ∧ roundRate 23 40 = 57) := by
  obtain ⟨hlen, hget⟩ := foldl_statsStep_levels srs t data ([0, 0, 0, 0, 0], 0) rfl
  have hlev : ∀ i, i < 5 → (stats data srs t).levels[i]? = some (countBucket data srs i) := by
    intro i hi
    have hi' : i < (data.foldl (statsStep srs t) ([0, 0, 0, 0, 0], 0)).1.length := by omega
    have h := hget i
    rw [List.getD_eq_getElem?_getD, List.getElem?_eq_getElem hi'] at h
    show (data.foldl (statsStep srs t) ([0, 0, 0, 0, 0], 0)).1[i]? = _
    rw [List.getElem?_eq_getElem hi']
    have h0 : ([0, 0, 0, 0, 0] : List Nat).getD i 0 = 0 := by
      rcases i with _ | _ | _ | _ | _ | i <;> rfl
    simp only [Option.getD_some] at h
    rw [h, h0, Nat.zero_add]
  have hlearned : (stats data srs t).learned ≤ data.length := by
    have h1 := hget 1
    have h2 := hget 2
    have h3 := hget 3
    have h4 := hget 4
    have hle := countBucket_learned_le data srs
    show (data.foldl (statsStep srs t) ([0, 0, 0, 0, 0], 0)).1.getD 1 0 +
      (data.foldl (statsStep srs t) ([0, 0, 0, 0, 0], 0)).1.getD 2 0 +
      (data.foldl (statsStep srs t) ([0, 0, 0, 0, 0], 0)).1.getD 3 0 +
      (data.foldl (statsStep srs t) ([0, 0, 0, 0, 0], 0)).1.getD 4 0 ≤ data.length
    rw [h1, h2, h3, h4]
    simpa using hle
  refine ⟨hlen, hlev, ?_, rfl, rfl, ?_, ?_, by decide⟩
  · intro hvalid i hi
    rw [hlev i hi]
    congr 1
    unfold countBucket countStoredLevel
    congr 1
    apply List.filter_congr
    intro v hv
    unfold bucket
    cases hst : srs (uid v) with
    | none => simp; exact eq_comm
    | some st =>
      obtain ⟨n, hn, hl⟩ := hvalid v hv st hst
      have hc : clampLevel (n : Int) = n := by unfold clampLevel; omega
      simp [hl, hc]
  · intro h0
    simp [stats, roundRate, h0]
  · intro hpos hbound
    exact roundRate_nearest _ _ hpos hlearned hbound

/-- Witness for C10 (amended): the sample list with three entries at levels 1, 2 and 4,
one at level 0 and one with no state has `learned = 3` and `rate = 60`. -/
theorem stats_spec_witness :
    0 < SAMPLE.length ∧ SAMPLE.length < 2 ^ 32 ∧
    (stats SAMPLE storeSample "2026-11-06").learned = 3 ∧
    (stats SAMPLE storeSample "2026-11-06").rate = 60 ∧
    2 * ((stats SAMPLE storeSample "2026-11-06").rate * SAMPLE.length) ≤
        200 * (stats SAMPLE storeSample "2026-11-06").learned + SAMPLE.length ∧
      200 * (stats SAMPLE storeSample "2026-11-06").learned ≤
        2 * ((stats SAMPLE storeSample "2026-11-06").rate * SAMPLE.length) + SAMPLE.length :=
  ⟨by decide, by decide, by decide, by decide,
    (stats_spec SAMPLE storeSample "2026-11-06").2.2.2.2.2.2.1 (by decide) (by decide)⟩

/-! ## Multiple choice -/

section ChoiceLemmas

variable {α β : Type}

theorem enum_eq_map_finRange (l : List α) :
    l.enum = (List.finRange l.length).map (fun i => (i.val, l.get i)) := by
  apply List.ext_getElem
  · simp
  · intro n h₁ h₂
    simp [List.getElem_enum]

theorem withoutIndex_eq_map (l : List α) (idx : Nat) :
    withoutIndex l idx =
      ((List.finRange l.length).filter (fun i => i.val != idx)).map l.get := by
  unfold withoutIndex
  rw [enum_eq_map_finRange, List.filter_map, List.map_map]
  rfl

theorem length_filter_finRange_ne (n idx : Nat) (h : idx < n) :
    ((List.finRange n).filter (fun i => i.val != idx)).length = n - 1 := by
  have hf : (List.finRange n).filter (fun i => i.val != idx) =
      (List.finRange n).erase ⟨idx, h⟩ := by
    rw [(List.nodup_finRange n).erase_eq_filter]
    apply List.filter_congr
    intro i _
    rw [Bool.eq_iff_iff]
    simp only [bne_iff_ne, ne_eq, Fin.ext_iff]
  rw [hf, List.length_erase_of_mem (List.mem_finRange _), List.length_finRange]

/-- A permutation of the image of a list is the image of a permutation of the list -/
theorem exists_perm_of_perm_map (f : α → β) {l₁ l₂ : List β} (h : l₁.Perm l₂) :
    ∀ l : List α, l₂ = l.map f → ∃ l' : List α, l'.Perm l ∧ l'.map f = l₁ := by
  induction h with
  | nil =>
    intro l hl
    exact ⟨l, List.Perm.refl _, hl.symm⟩
  | cons x _ ih =>
    intro l hl
    cases l with
    | nil => cases hl
    | cons a t =>
      simp only [List.map_cons, List.cons.injEq] at hl
      obtain ⟨t', ht, hm⟩ := ih t hl.2
      exact ⟨a :: t', ht.cons a, by simp [hm, hl.1]⟩
  | swap x y t =>
    intro l hl
    cases l with
    | nil => cases hl
    | cons a l =>
      cases l with
      | nil => simp at hl
      | cons b t' =>
        simp only [List.map_cons, List.cons.injEq] at hl
        exact ⟨b :: a :: t', List.Perm.swap a b t', by simp [hl.1, hl.2.1, hl.2.2]⟩
  | trans _ _ ih₁ ih₂ =>
    intro l hl
    obtain ⟨m, hm, hmm⟩ := ih₂ l hl
    obtain ⟨m', hm', hmm'⟩ := ih₁ m hmm.symm
    exact ⟨m', hm'.trans hm, hmm'⟩

/-- The first index holding a member of a list, and what erasing there leaves -/
theorem findIdx?_of_mem [DecidableEq α] (a : α) (l : List α) (h : a ∈ l) :
    ∃ k, l.findIdx? (fun v => v == a) = some k ∧ l[k]? = some a ∧ l.eraseIdx k = l.erase a := by
  induction l with
  | nil => cases h
  | cons x xs ih =>
    by_cases hx : x = a
    · subst hx
      exact ⟨0, by simp [List.findIdx?_cons], by simp, by simp⟩
    · have hmem : a ∈ xs := by
        rcases List.mem_cons.1 h with h' | h'
        · exact absurd h'.symm hx
        · exact h'
      obtain ⟨k, hk, hget, her⟩ := ih hmem
      refine ⟨k + 1, ?_, by simpa using hget, ?_⟩
      · simp [List.findIdx?_cons, hx, hk]
      · rw [List.eraseIdx_cons_succ, her, List.erase_cons_tail (by simpa using hx)]

end ChoiceLemmas

/-- What the options effect computes, in terms of positions of the session -/
theorem multipleChoiceOptions_positions {α : Type} [DecidableEq α] (draw₁ draw₂ : Draw)
    (items : List α) (idx : Nat) (hidx : idx < items.length) :
    ∃ ps₀ : List (Fin items.length), ps₀.Nodup ∧ (∀ p ∈ ps₀, p.val ≠ idx) ∧
      ps₀.length = min 3 (items.length - 1) ∧
      (multipleChoiceOptions draw₁ draw₂ items idx).options =
        shuffle draw₂ (items[idx] :: ps₀.map items.get) ∧
      (multipleChoiceOptions draw₁ draw₂ items idx).correctIdx =
        findIndex (shuffle draw₂ (items[idx] :: ps₀.map items.get)) items[idx] := by
  refine ⟨(shuffle draw₁ ((List.finRange items.length).filter (fun i => i.val != idx))).take 3,
    ?_, ?_, ?_, ?_, ?_⟩
  · exact (((shuffle_perm draw₁ _).nodup_iff.2
      ((List.nodup_finRange _).filter _)).sublist (List.take_sublist _ _))
  · intro p hp
    have h1 := (shuffle_perm draw₁ _).subset ((List.take_sublist _ _).subset hp)
    simpa using (List.mem_filter.1 h1).2
  · rw [List.length_take, length_shuffle, length_filter_finRange_ne _ _ hidx]
  · simp only [multipleChoiceOptions, List.getElem?_eq_getElem hidx, withoutIndex_eq_map,
      shuffle_map, List.map_take]
  · simp only [multipleChoiceOptions, List.getElem?_eq_getElem hidx, withoutIndex_eq_map,
      shuffle_map, List.map_take]

/-- C11: for every session, index `idx` inside it and outcome of the draws of the two
shuffles, the options list has length `min(4, |items|)`, `correctIdx` is an index `k` of
it with `options[k]` the current item `items[idx]`, and the options other than the one at
`k` are the session read at a list of pairwise distinct positions, all different from
`idx`; in a session without repeated objects the current item stands at no other index,
so the picked option is the current item exactly when the picked index is `correctIdx`. -/
theorem multipleChoiceOptions_spec {α : Type} [DecidableEq α] (draw₁ draw₂ : Draw)
    (items : List α) (idx : Nat) (hidx : idx < items.length) :
    (multipleChoiceOptions draw₁ draw₂ items idx).options.length = min 4 items.length ∧
    ∃ k : Nat, (multipleChoiceOptions draw₁ draw₂ items idx).correctIdx = (k : Int) ∧
      (multipleChoiceOptions draw₁ draw₂ items idx).options[k]? = some items[idx] ∧
      (∃ ps : List (Fin items.length), ps.Nodup ∧ (∀ p ∈ ps, p.val ≠ idx) ∧
        (multipleChoiceOptions draw₁ draw₂ items idx).options.eraseIdx k = ps.map items.get) ∧
      (items.Nodup → ∀ i : Nat,
        ((multipleChoiceOptions draw₁ draw₂ items idx).options[i]? = some items[idx] ↔
          i = k)) := by
  obtain ⟨ps₀, hnd, hne, hlen, hopts, hcorrect⟩ :=
    multipleChoiceOptions_positions draw₁ draw₂ items idx hidx
  rw [hopts, hcorrect]
  have hperm := shuffle_perm draw₂ (items[idx] :: ps₀.map items.get)
  have hmem : items[idx] ∈ shuffle draw₂ (items[idx] :: ps₀.map items.get) :=
    hperm.symm.subset (List.mem_cons_self _ _)
  obtain ⟨k, hk, hget, her⟩ := findIdx?_of_mem items[idx] _ hmem
  refine ⟨?_, k, ?_, hget, ?_, ?_⟩
  · rw [length_shuffle, List.length_cons, List.length_map, hlen]
    omega
  · simp only [findIndex, hk]
  · have hp : ((shuffle draw₂ (items[idx] :: ps₀.map items.get)).erase items[idx]).Perm
        (ps₀.map items.get) := by
      have := hperm.erase items[idx]
      rwa [List.erase_cons_head] at this
    obtain ⟨ps, hps, hmap⟩ := exists_perm_of_perm_map items.get hp ps₀ rfl
    exact ⟨ps, hps.nodup_iff.2 hnd, fun p hp' => hne p (hps.subset hp'), by rw [her, hmap]⟩
  · intro hitems i
    have hpos : ((⟨idx, hidx⟩ : Fin items.length) :: ps₀).Nodup :=
      List.nodup_cons.2 ⟨fun hin => hne _ hin rfl, hnd⟩
    have hinj : Function.Injective items.get := List.nodup_iff_injective_get.1 hitems
    have hnodup : (shuffle draw₂ (items[idx] :: ps₀.map items.get)).Nodup := by
      rw [hperm.nodup_iff]
      exact hpos.map hinj
    constructor
    · intro hi
      obtain ⟨hik, hiv⟩ := List.getElem?_eq_some.1 hi
      obtain ⟨hkk, hkv⟩ := List.getElem?_eq_some.1 hget
      exact (List.Nodup.getElem_inj_iff hnodup).1 (hiv.trans hkv.symm)
    · rintro rfl
      exact hget

/-- Witness for C11: the options for the second sample entry -/
theorem multipleChoiceOptions_spec_witness :
    1 < SAMPLE.length ∧
    (multipleChoiceOptions drawZero drawLast SAMPLE 1).options.length = min 4 SAMPLE.length :=
  ⟨by decide, (multipleChoiceOptions_spec drawZero drawLast SAMPLE 1 (by decide)).1⟩

/-- The options effect on a list of five numbers at index 1 -/
theorem multipleChoiceOptions_numbers :
    (multipleChoiceOptions drawZero drawLast [10, 20, 30, 40, 50] 1).options = [20, 30, 40, 50] ∧
    (multipleChoiceOptions drawZero drawLast [10, 20, 30, 40, 50] 1).correctIdx = 0 := by
  decide

/-! ## Flashcard session -/

/-- What a grade does to the state when a card is shown and `mark` returns: the store is
the one `mark` built, the index is clamped at the last index of the old session, and the
session is built again from the due list of the new store. -/
theorem markAndRender_ok (host : Host) (draw : Draw) (now : Int) (pass : Bool)
    (s : PracticeState)
    (cur : WordEntry) (next : Store) (hcur : s.session[s.idx]? = some cur)
    (hmark : mark host s.srs (uid cur) now pass = .ok next) :
    markAndRender host draw now pass s = .ok
      { data := s.data
        srs := next
        count := s.count
        session := session draw (dueToday s.data next (today now)) s.data s.count
        idx := min (s.session.length - 1) (s.idx + 1) } := by
  unfold markAndRender
  simp only [hcur, hmark]

/-- C12 fails on the code. On the sample list with nothing stored, the session holds the
five entries in order; a pass grade on the first card, whatever the draws, leaves a
session of four items without the graded entry and the index at 1; and after three pass
grades (draws that leave the order alone) the session holds the two entries that are
still due, the index is 2, and no card is shown. -/
theorem markAndRender_rebuilds_session :
    sampleSession.session = SAMPLE ∧ sampleSession.idx = 0 ∧
    (∀ draw : Draw, ∃ s, markAndRender utcHost draw sampleNow true sampleSession = .ok s ∧
      s.session.length = 4 ∧ s.session ≠ sampleSession.session ∧
      (∀ v ∈ s.session, v.word ≠ "あいじょう") ∧ s.idx = 1) ∧
    (∃ s, sampleSessionAfterThreePasses = .ok s ∧
      s.session.map (fun v => v.word) = ["あいづち", "いざかや"] ∧
      dueToday s.data s.srs (today sampleNow) = s.session ∧
      s.idx = 2 ∧ s.session[s.idx]? = none) := by
  refine ⟨by decide, rfl, ?_, ⟨_, rfl, by decide, by decide, by decide, by decide⟩⟩
  intro draw
  obtain ⟨cur, hcur, next, hmark, hpool⟩ :
      ∃ cur, sampleSession.session[sampleSession.idx]? = some cur ∧
        ∃ next, mark utcHost sampleSession.srs (uid cur) sampleNow true = .ok next ∧
          dueToday sampleSession.data next (today sampleNow) = SAMPLE.tail :=
    ⟨SAMPLE[0], by decide, _, rfl, by decide⟩
  have hlen : (session draw SAMPLE.tail SAMPLE 20).length = 4 := by
    simp only [session]
    rw [List.length_take, if_pos (by decide), length_shuffle]
    decide
  refine ⟨_, markAndRender_ok utcHost draw sampleNow true sampleSession cur next hcur hmark, ?_, ?_, ?_, ?_⟩
  · show (session draw (dueToday sampleSession.data next (today sampleNow)) _ _).length = 4
    rw [hpool]
    exact hlen
  · intro h
    have h5 : sampleSession.session.length = 5 := by decide
    have h4 : (session draw (dueToday sampleSession.data next (today sampleNow))
        sampleSession.data sampleSession.count).length = 4 := by
      rw [hpool]
      exact hlen
    have := congrArg List.length h
    simp only [h5, h4] at this
    omega
  · intro v hv
    have hv' : v ∈ session draw SAMPLE.tail sampleSession.data sampleSession.count := by
      rw [← hpool]
      exact hv
    simp only [session] at hv'
    rw [if_pos (by decide)] at hv'
    have hmem : v ∈ SAMPLE.tail :=
      (shuffle_perm draw _).subset ((List.take_sublist _ _).subset hv')
    clear hv hv'
    revert v
    decide
  · show min (sampleSession.session.length - 1) (sampleSession.idx + 1) = 1
    decide

end N2Vocab
